import Mathlib

/-!
# Verification of the UPSETAI rule-based upset detector

Shallow embedding of `upsetAi/upsetai.py` (the core analysis library: text
normalizer, signal detectors, hostility scorer, message/conversation
analyzers, action recommender).  Text is modelled as `List Char`.  Python
floats are modelled at two levels: a value-level model over exact
rationals `ℚ`, used by the structural claims whose truth does not depend
on rounding, and an exact model of IEEE-754 binary64 arithmetic
(`roundB64` and the `f...` definitions below), in which every float value
is the exact rational it represents and every float operation is the
correctly rounded exact operation.  The binary64 model is the one the
program's threshold comparisons and reported confidences follow.

Whitespace and letter-case are modelled at the ASCII level (the six ASCII
whitespace characters for `str.strip` / `\s`, and `A`–`Z` for
`str.lower`), which agrees with Python on every character class this
program's fixed phrase sets and the analysed claims involve.
-/

namespace UpsetAi

section

/- Batteries marks the arithmetic on `Rat` irreducible; restore the default
transparency locally so that concrete scores evaluate inside `decide`. -/
attribute [local semireducible] Rat.mul Rat.add Rat.sub Rat.inv

/-- The characters Python's `str.strip()` / regex `\s` treat as whitespace
(ASCII fragment): space, tab, newline, carriage return, vertical tab, form
feed. -/
def isWs (c : Char) : Bool :=
  c == ' ' || c == '\t' || c == '\n' || c == '\r' || c == '\x0b' || c == '\x0c'

/-- Python word character (regex `\w`, ASCII fragment): letters, digits,
underscore.  The right single quotation mark U+2019 appearing inside the
phrase sets is not a word character, in Python or here. -/
def isWordChar (c : Char) : Bool :=
  ('a' ≤ c && c ≤ 'z') || ('A' ≤ c && c ≤ 'Z') || ('0' ≤ c && c ≤ '9') || c == '_'

/-- `str.strip()`: remove leading and trailing whitespace. -/
def stripWs (l : List Char) : List Char :=
  ((l.dropWhile isWs).reverse.dropWhile isWs).reverse

/-- `re.sub(r"\s+", " ", ·)`: replace every maximal whitespace run by one
space. -/
def collapseWs : List Char → List Char
  | [] => []
  | [c] => if isWs c then [' '] else [c]
  | c :: d :: rest =>
    if isWs c && isWs d then collapseWs (d :: rest)
    else (if isWs c then ' ' else c) :: collapseWs (d :: rest)

/-- `norm(text)`: `re.sub(r"\s+", " ", text.strip().lower())`.
`Char.toLower` is exactly Python's `str.lower` on ASCII. -/
def norm (text : List Char) : List Char :=
  collapseWs ((stripWs text).map Char.toLower)

/-- Substring test, `needle in hay` on Python strings. -/
def isSubstring (n : List Char) : List Char → Bool
  | [] => n.isEmpty
  | c :: rest => n.isPrefixOf (c :: rest) || isSubstring n rest

/-- Shorthand for string literals as character lists. -/
def chars (s : String) : List Char := s.data

/-! ## Fixed phrase sets (module-level constants of the source) -/

def NEG_EMO_WORDS : List (List Char) :=
  [chars "whatever", chars "idc", chars "dont care", chars "don’t care",
   chars "whatever.", chars "fine.", chars "ok.", chars "k.", chars "k",
   chars "sure.", chars "great.", chars "cool.", chars "as you wish",
   chars "do what you want", chars "you do you", chars "it’s fine",
   chars "its fine", chars "i’m fine", chars "im fine",
   chars "i’m okay", chars "im okay", chars "okay.", chars "forget it",
   chars "leave me alone", chars "do whatever", chars "doesn’t matter",
   chars "doesnt matter"]

def HURT_CUES : List (List Char) :=
  [chars "you never", chars "you always", chars "you didn’t",
   chars "you didnt", chars "you wouldn’t", chars "you wouldnt",
   chars "you said", chars "after what you did", chars "how could you",
   chars "that hurt", chars "i don’t matter", chars "i dont matter"]

def DRY_SINGLETONS : List (List Char) :=
  [chars "k", chars "ok", chars "okay", chars "fine", chars "whatever"]

def SOFTENERS : List (List Char) :=
  [chars "maybe", chars "perhaps", chars "could", chars "might",
   chars "i feel", chars "from my side", chars "i think"]

def EMOJIS_SAD : List Char :=
  [Char.ofNat 0x1F614, Char.ofNat 0x1F61E, Char.ofNat 0x1F622,
   Char.ofNat 0x1F62D, Char.ofNat 0x1F643, Char.ofNat 0x1F972,
   Char.ofNat 0x1F611, Char.ofNat 0x1F612, Char.ofNat 0x1F44E]

def EMOJIS_ANGRY : List Char :=
  [Char.ofNat 0x1F620, Char.ofNat 0x1F621, Char.ofNat 0x1F4A2]

/-! ## Signal detectors -/

/-- `count_emojis`: number of characters in the sad or angry emoji sets. -/
def count_emojis (text : List Char) : Nat :=
  text.countP (fun c => EMOJIS_SAD.contains c || EMOJIS_ANGRY.contains c)

/-- Python `str.split()` on a character list: maximal non-whitespace runs. -/
def splitWsAux (cur : List Char) : List Char → List (List Char)
  | [] => if cur.isEmpty then [] else [cur.reverse]
  | c :: rest =>
    if isWs c then
      (if cur.isEmpty then splitWsAux [] rest
       else cur.reverse :: splitWsAux [] rest)
    else splitWsAux (c :: cur) rest

def pySplit (l : List Char) : List (List Char) := splitWsAux [] l

/-- `re.fullmatch(r"[.!?]+", t)`: non-empty and all characters in `.!?`. -/
def punctOnly (l : List Char) : Bool :=
  !l.isEmpty && l.all (fun c => c == '.' || c == '!' || c == '?')

/-- `is_short_dry`: at most two words and (a dry singleton, or ends with a
period, or exactly "k"); or the whole normalized text is punctuation. -/
def is_short_dry (text : List Char) : Bool :=
  let t := norm text
  let words := pySplit t
  (words.length ≤ 2 &&
    (DRY_SINGLETONS.contains t || (t.getLast? == some '.') || t == chars "k"))
  || punctOnly t

/-- The alternatives of the negation regex
`\b(no|not|don’t|dont|never|nothing|noway)\b` (the apostrophe in the
source's `don’t` is the right single quotation mark U+2019). -/
def NEG_TOKENS : List (List Char) :=
  [chars "no", chars "not", chars "don’t", chars "dont", chars "never",
   chars "nothing", chars "noway"]

/-- An adjacent position is a word boundary if there is no character there
or the character is not a word character. -/
def nonWordEdge : Option Char → Bool
  | none => true
  | some c => !isWordChar c

/-- Word boundary before offset `i` of `l`: start of string or previous
character not a word character.  (Every token searched for starts and ends
with a word character, so regex `\b` reduces to exactly this.) -/
def boundaryBeforeAt (l : List Char) (i : Nat) : Bool :=
  nonWordEdge (l.take i).getLast?

/-- Word boundary at the start of `rest` (the text after a candidate
match): end of string or next character not a word character. -/
def boundaryAfter (rest : List Char) : Bool :=
  nonWordEdge rest.head?

/-- `re.search` of a whole-word alternation: some alternative matches at
some offset with word boundaries on both sides. -/
def wordTokenSearch (toks : List (List Char)) (l : List Char) : Bool :=
  (List.range (l.length + 1)).any (fun i =>
    boundaryBeforeAt l i && toks.any (fun tok =>
      tok.isPrefixOf (l.drop i) && boundaryAfter ((l.drop i).drop tok.length)))

/-- `negations_present`: the negation regex searched in the normalized
text. -/
def negations_present (text : List Char) : Bool :=
  wordTokenSearch NEG_TOKENS (norm text)

/-- `contains_any(text, bag)`: some phrase of the bag is a substring of the
normalized text. -/
def contains_any (text : List Char) (bag : List (List Char)) : Bool :=
  let t := norm text
  bag.any (fun phrase => isSubstring phrase t)

/-- `missing_softeners`: no softener phrase occurs in the normalized
text. -/
def missing_softeners (text : List Char) : Bool :=
  let t := norm text
  !(SOFTENERS.any (fun w => isSubstring w t))

/-- The pattern `\.\s*\.\s*\.` anchored at the head of `l`.  Dropping the
whole whitespace run is equivalent to the regex's `\s*` here because the
character required next (`.`) is not whitespace. -/
def dotWsDotWsDot (l : List Char) : Bool :=
  match l with
  | '.' :: rest =>
    match rest.dropWhile isWs with
    | '.' :: rest2 =>
      match rest2.dropWhile isWs with
      | '.' :: _ => true
      | _ => false
    | _ => false
  | _ => false

/-- `re.search(pat, l)` for a head-anchored pattern test: the pattern
matches at some suffix. -/
def anySuffixP (p : List Char → Bool) : List Char → Bool
  | [] => p []
  | c :: rest => p (c :: rest) || anySuffixP p rest

/-- `ellipsis_like`: a literal `...` or a dot-whitespace-dot-whitespace-dot
pattern in the raw text. -/
def ellipsis_like (text : List Char) : Bool :=
  isSubstring (chars "...") text || anySuffixP dotWsDotWsDot text

/-- The pattern `([!?])\1{1,}` anchored at the head: two equal consecutive
characters from `!?`. -/
def doublePunctAt (l : List Char) : Bool :=
  match l with
  | c :: d :: _ => (c == '!' || c == '?') && d == c
  | _ => false

/-- `repeated_punct`: `re.search(r"([!?])\1{1,}", text)`. -/
def repeated_punct (text : List Char) : Bool :=
  anySuffixP doublePunctAt text

/-! ## Hostility scorer -/

/-- `hostility_score`: sequential accumulation of the fixed increments,
clamped to at most 1, following the source line by line (the
substring-based detectors are applied to the already-normalized `t`, the
others to the raw text).  This is the value-level reading with exact
rational addition; `fhostility_score` below performs the same accumulation
in binary64 arithmetic, which is what the program computes. -/
def hostility_score (text : List Char) : ℚ :=
  let t := norm text
  let s1 : ℚ := if contains_any t HURT_CUES then 0 + 45/100 else 0
  let s2 := if negations_present t then s1 + 15/100 else s1
  let s3 := if repeated_punct t then s2 + 15/100 else s2
  let s4 := if count_emojis text > 0 then s3 + 10/100 else s3
  let s5 := if ellipsis_like text then s4 + 8/100 else s4
  let s6 := if contains_any t NEG_EMO_WORDS then s5 + 25/100 else s5
  let s7 := if is_short_dry text then s6 + 22/100 else s6
  let s8 := if missing_softeners text then s7 + 5/100 else s7
  if s8 ≤ 1 then s8 else 1

/-- Rounding to the nearest multiple of `1/100` over exact rationals
(Mathlib's `round`, ties upward).  On the single-message path every score
is an exact multiple of `1/100` (`hostility_score_num`), so no tie arises
there and this agrees with Python's `round(x, 2)`.  On the conversation
path it does not model Python's rounding of a float — `pyRound2` below
does (ties-to-even on the exact value of the binary64 average, then back
to the nearest double). -/
def round2 (q : ℚ) : ℚ := round (q * 100) / 100

/-! ## Message analyzer -/

structure AnalysisResult where
  is_upset : Bool
  confidence : ℚ
  signals : List (List Char)
  reason : List Char
  suggested_action : List Char
deriving DecidableEq, Repr

def withdrawSignal : List Char :=
  chars "phrases suggesting withdrawal (‘fine’, ‘whatever’, ‘I’m okay’)."
def drySignal : List Char := chars "short/dry reply."
def hurtSignal : List Char :=
  chars "hurt/accusatory cues (‘you never’, ‘after what you did’)."
def punctSignal : List Char := chars "repeated punctuation (emotionally charged)."
def ellipsisSignal : List Char := chars "ellipsis (distance/withholding)."
def emojiSignal : List Char := chars "sad/angry emoji present."
def softenerSignal : List Char := chars "no softening language."

def ownAndApologize : List Char :=
  chars "I’m sorry I let you down there. I care about how you feel, and I want to make it right. What would help right now?"
def acknowledgeAndInvite : List Char :=
  chars "I may have missed something. Your feelings matter to me—do you want to talk about it? I’m listening."
def offerSpace : List Char :=
  chars "I can sense this is heavy. I’m here for you, and I’ll give you a bit of space if you need it. Message me when you’re ready."
def clarifyGently : List Char :=
  chars "I want to understand you better. Could you help me see what I missed? I’m asking so I can do better."

/-- The free-text marker the recommender greps for in the signals list. -/
def hurtTag : List Char := chars "hurt/accusatory"

/-- Python `" ".join(strings)`. -/
def joinSp : List (List Char) → List Char
  | [] => []
  | [s] => s
  | s :: t :: rest => s ++ ' ' :: joinSp (t :: rest)

/-- `suggest_action(text, signals, confidence)`: the fixed decision tree of
the source, in source order. -/
def suggest_action (text : List Char) (signals : List (List Char))
    (confidence : ℚ) : List Char :=
  let t := norm text
  let high := decide (7/10 ≤ confidence)
  let med := decide (11/20 ≤ confidence ∧ confidence < 7/10)
  if contains_any t HURT_CUES || isSubstring hurtTag (joinSp signals) then
    ownAndApologize
  else if is_short_dry text || contains_any t NEG_EMO_WORDS then
    (if med || high then acknowledgeAndInvite else clarifyGently)
  else if repeated_punct text || count_emojis text > 0 then
    acknowledgeAndInvite
  else if ellipsis_like text then
    (if med || high then offerSpace else clarifyGently)
  else clarifyGently

/-- `analyze_message(text)`. -/
def analyze_message (text : List Char) : AnalysisResult :=
  let s := hostility_score text
  let signals :=
    (if contains_any text NEG_EMO_WORDS then [withdrawSignal] else []) ++
    (if is_short_dry text then [drySignal] else []) ++
    (if contains_any text HURT_CUES then [hurtSignal] else []) ++
    (if repeated_punct text then [punctSignal] else []) ++
    (if ellipsis_like text then [ellipsisSignal] else []) ++
    (if count_emojis text > 0 then [emojiSignal] else []) ++
    (if missing_softeners text then [softenerSignal] else [])
  let isUp := decide (1/2 ≤ s)
  { is_upset := isUp
    confidence := round2 s
    signals := signals
    reason :=
      if isUp then chars "Message contains multiple upset signals."
      else chars "Few or weak upset signals detected."
    suggested_action := suggest_action text signals s }

/-! ## Conversation analyzer -/

structure ConversationEntry where
  text : List Char
  author : List Char
deriving DecidableEq, Repr

/-- The author filter at the head of `analyze_conversation`.  Python's
`if focus_author:` is false both for `None` and for the empty string, so an
empty `focus_author` leaves the list unfiltered. -/
def filteredMessages (msgs : List ConversationEntry)
    (focus_author : Option (List Char)) : List ConversationEntry :=
  match focus_author with
  | some a => if a.isEmpty then msgs else msgs.filter (fun m => m.author == a)
  | none => msgs

/-- The fixed neutral result returned when the filtered list is empty. -/
def neutralResult : AnalysisResult :=
  { is_upset := false
    confidence := 0
    signals := []
    reason := chars "No messages to analyze."
    suggested_action := chars "Ask a gentle, open question to invite sharing." }

/-- The recency weights `0.6 + 0.4 * (idx + 1) / max(1, n)` built by the
enumeration loop. -/
def convoWeights (n : Nat) : List ℚ :=
  (List.range n).map
    (fun idx : Nat => 3/5 + (2/5) * ((idx : ℚ) + 1) / ((max 1 n : Nat) : ℚ))

/-- Order-preserving de-duplication keeping the first occurrence:
`list(dict.fromkeys(·))`. -/
def dedupFirst {α : Type} [DecidableEq α] (seen : List α) : List α → List α
  | [] => []
  | x :: rest =>
    if x ∈ seen then dedupFirst seen rest else x :: dedupFirst (x :: seen) rest

/-- The weighted average `sum(s*w for s, w in zip(scores, weights)) /
max(total_w, 1e-9)` over the per-message (rounded) confidences, in the
value-level model with exact rational arithmetic; `fconvoAvg` below is the
binary64 version the program computes. -/
def convoAvg (filtered : List ConversationEntry) : ℚ :=
  let weights := convoWeights filtered.length
  let scores := (filtered.map (fun m => analyze_message m.text)).map
    (fun r => r.confidence)
  (List.zipWith (fun s w => s * w) scores weights).sum /
    (if 1/1000000000 ≤ weights.sum then weights.sum else 1/1000000000)

/-- The concatenation `all_signals` built by the enumeration loop: every
message's signal list, in message order. -/
def convoAllSignals (filtered : List ConversationEntry) : List (List Char) :=
  ((filtered.map (fun m => analyze_message m.text)).map (fun r => r.signals)).flatten

/-- Body of `analyze_conversation` after author filtering. -/
def convoResult (filtered : List ConversationEntry) : AnalysisResult :=
  if h : filtered = [] then neutralResult
  else
    { is_upset := decide (1/2 ≤ convoAvg filtered)
      confidence := round2 (convoAvg filtered)
      signals := dedupFirst [] (convoAllSignals filtered)
      reason :=
        if decide (1/2 ≤ convoAvg filtered) then chars "Recent messages tilt upset."
        else chars "Tone mostly neutral."
      suggested_action :=
        suggest_action (filtered.getLast h).text (convoAllSignals filtered)
          (convoAvg filtered) }

/-- `analyze_conversation(messages, focus_author)`. -/
def analyze_conversation (msgs : List ConversationEntry)
    (focus_author : Option (List Char)) : AnalysisResult :=
  convoResult (filteredMessages msgs focus_author)

/-! ## Specification-side formulations

These definitions transcribe the specification's wording of the algorithm
(per-detector additive increments, the ideal recency-weight formula without
the code's `max` guards, the recommender as the spec states its branches).
The theorems below compare them with the embedded code. -/

/-- Spec: hurt-cue detector contributes `+0.45`. -/
def hurtIncrement (text : List Char) : ℚ :=
  if contains_any (norm text) HURT_CUES then 45/100 else 0

/-- Spec: negation detector contributes `+0.15`. -/
def negationIncrement (text : List Char) : ℚ :=
  if negations_present (norm text) then 15/100 else 0

/-- Spec: repeated-punctuation detector contributes `+0.15`. -/
def punctIncrement (text : List Char) : ℚ :=
  if repeated_punct (norm text) then 15/100 else 0

/-- Spec: emoji-present detector contributes `+0.10`. -/
def emojiIncrement (text : List Char) : ℚ :=
  if count_emojis text > 0 then 10/100 else 0

/-- Spec: ellipsis detector contributes `+0.08`. -/
def ellipsisIncrement (text : List Char) : ℚ :=
  if ellipsis_like text then 8/100 else 0

/-- Spec: withdrawal-phrase detector contributes `+0.25`. -/
def withdrawIncrement (text : List Char) : ℚ :=
  if contains_any (norm text) NEG_EMO_WORDS then 25/100 else 0

/-- Spec: dry-reply detector contributes `+0.22`. -/
def dryIncrement (text : List Char) : ℚ :=
  if is_short_dry text then 22/100 else 0

/-- Spec: missing-softener detector contributes `+0.05`. -/
def softenerIncrement (text : List Char) : ℚ :=
  if missing_softeners text then 5/100 else 0

/-- Spec: the sum of the fixed increments of exactly the detectors that
fire. -/
def incrementSum (text : List Char) : ℚ :=
  hurtIncrement text + negationIncrement text + punctIncrement text +
  emojiIncrement text + ellipsisIncrement text + withdrawIncrement text +
  dryIncrement text + softenerIncrement text

/-! ## Scorer lemmas -/

/-- The computable clamp written with `if` agrees with `min` (stated
generically over the decidability instance, since `ℚ`'s order instances
differ between the computable and the order-theoretic paths). -/
theorem clamp_eq_min (a b : ℚ) [inst : Decidable (a ≤ b)] :
    (if a ≤ b then a else b) = min a b := by
  split
  · exact (min_eq_left (by assumption)).symm
  · exact (min_eq_right (le_of_not_le (by assumption))).symm

/-- The sequential accumulation of the source equals the spec's sum of
per-detector increments, clamped at 1. -/
theorem hostility_score_eq (text : List Char) :
    hostility_score text = min (incrementSum text) 1 := by
  have hshift : ∀ (b : Prop) [Decidable b] (x a : ℚ),
      (if b then x + a else x) = x + (if b then a else 0) := by
    intro b _ x a
    split <;> simp
  simp only [hostility_score, incrementSum, hurtIncrement, negationIncrement,
    punctIncrement, emojiIncrement, ellipsisIncrement, withdrawIncrement,
    dryIncrement, softenerIncrement, hshift, zero_add]
  rw [clamp_eq_min]

/-- Every hostility score is an exact multiple of `1/100` in `[0, 1]`. -/
theorem hostility_score_num (text : List Char) :
    ∃ n : ℕ, n ≤ 100 ∧ hostility_score text = (n : ℚ)/100 := by
  have h1 : ∃ n : ℕ, hurtIncrement text = (n : ℚ)/100 := by
    unfold hurtIncrement; split
    · exact ⟨45, by norm_num⟩
    · exact ⟨0, by norm_num⟩
  have h2 : ∃ n : ℕ, negationIncrement text = (n : ℚ)/100 := by
    unfold negationIncrement; split
    · exact ⟨15, by norm_num⟩
    · exact ⟨0, by norm_num⟩
  have h3 : ∃ n : ℕ, punctIncrement text = (n : ℚ)/100 := by
    unfold punctIncrement; split
    · exact ⟨15, by norm_num⟩
    · exact ⟨0, by norm_num⟩
  have h4 : ∃ n : ℕ, emojiIncrement text = (n : ℚ)/100 := by
    unfold emojiIncrement; split
    · exact ⟨10, by norm_num⟩
    · exact ⟨0, by norm_num⟩
  have h5 : ∃ n : ℕ, ellipsisIncrement text = (n : ℚ)/100 := by
    unfold ellipsisIncrement; split
    · exact ⟨8, by norm_num⟩
    · exact ⟨0, by norm_num⟩
  have h6 : ∃ n : ℕ, withdrawIncrement text = (n : ℚ)/100 := by
    unfold withdrawIncrement; split
    · exact ⟨25, by norm_num⟩
    · exact ⟨0, by norm_num⟩
  have h7 : ∃ n : ℕ, dryIncrement text = (n : ℚ)/100 := by
    unfold dryIncrement; split
    · exact ⟨22, by norm_num⟩
    · exact ⟨0, by norm_num⟩
  have h8 : ∃ n : ℕ, softenerIncrement text = (n : ℚ)/100 := by
    unfold softenerIncrement; split
    · exact ⟨5, by norm_num⟩
    · exact ⟨0, by norm_num⟩
  obtain ⟨n1, e1⟩ := h1; obtain ⟨n2, e2⟩ := h2; obtain ⟨n3, e3⟩ := h3
  obtain ⟨n4, e4⟩ := h4; obtain ⟨n5, e5⟩ := h5; obtain ⟨n6, e6⟩ := h6
  obtain ⟨n7, e7⟩ := h7; obtain ⟨n8, e8⟩ := h8
  have hsum : incrementSum text = ((n1 + n2 + n3 + n4 + n5 + n6 + n7 + n8 : ℕ) : ℚ)/100 := by
    unfold incrementSum
    rw [e1, e2, e3, e4, e5, e6, e7, e8]
    push_cast
    ring
  set m : ℕ := n1 + n2 + n3 + n4 + n5 + n6 + n7 + n8 with hm
  rcases le_total m 100 with h | h
  · refine ⟨m, h, ?_⟩
    rw [hostility_score_eq, hsum]
    exact min_eq_left ((div_le_one (by norm_num)).2 (by exact_mod_cast h))
  · refine ⟨100, le_refl 100, ?_⟩
    rw [hostility_score_eq, hsum]
    rw [min_eq_right ((one_le_div (by norm_num)).2 (by exact_mod_cast h))]
    norm_num

/-- `round(·, 2)` is the identity on exact multiples of `1/100`. -/
theorem round2_nat_div (n : ℕ) : round2 ((n : ℚ)/100) = (n : ℚ)/100 := by
  unfold round2
  rw [div_mul_cancel₀ _ (by norm_num : (100 : ℚ) ≠ 0), round_natCast]
  push_cast
  ring

/-- The `confidence` field is the raw score: 2-decimal rounding does not
move it. -/
theorem analyze_message_confidence (text : List Char) :
    (analyze_message text).confidence = hostility_score text := by
  obtain ⟨n, _, hs⟩ := hostility_score_num text
  simp only [analyze_message]
  rw [hs, round2_nat_div]

theorem analyze_message_is_upset (text : List Char) :
    (analyze_message text).is_upset = decide ((1:ℚ)/2 ≤ hostility_score text) := by
  simp only [analyze_message]

/-! ## C2 -/

/-- C2: the hostility score is the sum of the fixed increments of exactly
the detectors that fire, clamped to at most 1; consequently the returned
confidence lies in `[0, 1]`. -/
theorem score_is_clamped_increment_sum (text : List Char) :
    hostility_score text = min (incrementSum text) 1 ∧
    0 ≤ (analyze_message text).confidence ∧
    (analyze_message text).confidence ≤ 1 := by
  obtain ⟨n, hn, hs⟩ := hostility_score_num text
  refine ⟨hostility_score_eq text, ?_, ?_⟩
  · rw [analyze_message_confidence, hs]
    positivity
  · rw [analyze_message_confidence, hs]
    exact (div_le_one (by norm_num)).2 (by exact_mod_cast hn)

/-! ## Substring and membership lemmas -/

theorem isSubstring_iff {n l : List Char} : isSubstring n l = true ↔ n <:+: l := by
  induction l with
  | nil =>
    simp [isSubstring, List.isEmpty_iff]
  | cons c rest ih =>
    simp only [isSubstring, Bool.or_eq_true, List.isPrefixOf_iff_prefix, ih,
      List.infix_cons_iff]

theorem isSubstring_singleton {c : Char} {l : List Char} :
    isSubstring [c] l = true ↔ c ∈ l := by
  rw [isSubstring_iff]
  constructor
  · intro h
    exact List.singleton_sublist.1 h.sublist
  · intro h
    obtain ⟨s, t, rfl⟩ := List.append_of_mem h
    exact ⟨s, t, by simp⟩

theorem mem_dropWhile_of_neg {p : Char → Bool} {c : Char} (hc : p c = false) :
    ∀ {l : List Char}, c ∈ l → c ∈ l.dropWhile p := by
  intro l h
  induction l with
  | nil => cases h
  | cons a rest ih =>
    rw [List.dropWhile_cons]
    split
    · rcases List.mem_cons.1 h with rfl | h'
      · simp_all
      · exact ih h'
    · exact h

theorem mem_stripWs {c : Char} (hc : isWs c = false) {l : List Char}
    (h : c ∈ l) : c ∈ stripWs l := by
  unfold stripWs
  rw [List.mem_reverse]
  exact mem_dropWhile_of_neg hc (List.mem_reverse.2 (mem_dropWhile_of_neg hc h))

theorem mem_collapseWs {c : Char} (hc : isWs c = false) :
    ∀ {l : List Char}, c ∈ l → c ∈ collapseWs l := by
  intro l h
  induction l with
  | nil => cases h
  | cons a rest ih =>
    match rest, h with
    | [], h =>
      have : c = a := by simpa using h
      subst this
      simp [collapseWs, hc]
    | d :: rest', h =>
      rw [collapseWs]
      rcases List.mem_cons.1 h with rfl | h'
      · rw [if_neg (by simp [hc])]
        simp [hc]
      · split
        · exact ih h'
        · exact List.mem_cons_of_mem _ (ih h')

/-- A character that is not whitespace and is fixed by lowercasing survives
normalization. -/
theorem mem_norm {c : Char} (hws : isWs c = false) (hlc : Char.toLower c = c)
    {l : List Char} (h : c ∈ l) : c ∈ norm l := by
  unfold norm
  refine mem_collapseWs hws ?_
  exact List.mem_map.2 ⟨c, mem_stripWs hws h, hlc⟩

/-! ## C4: the single-character phrase "k" -/

/-- C4: any input containing the character `k` fires the withdrawal-phrase
detector (the phrase set contains the one-character phrase "k" and matching
is by substring), so 0.25 is added to the score and the withdrawal signal
explanation is emitted. -/
theorem k_char_fires_withdrawal (text : List Char) (h : 'k' ∈ text) :
    contains_any text NEG_EMO_WORDS = true ∧
    withdrawIncrement text = 25/100 ∧
    withdrawSignal ∈ (analyze_message text).signals := by
  have hws : isWs 'k' = false := by decide
  have hlc : Char.toLower 'k' = 'k' := by decide
  have hk : ∀ l : List Char, 'k' ∈ l → contains_any l NEG_EMO_WORDS = true := by
    intro l hl
    unfold contains_any
    refine List.any_eq_true.2 ⟨chars "k", ?_, ?_⟩
    · decide
    · exact isSubstring_singleton.2 (mem_norm hws hlc hl)
  have h1 : contains_any text NEG_EMO_WORDS = true := hk text h
  refine ⟨h1, ?_, ?_⟩
  · unfold withdrawIncrement
    rw [if_pos (hk (norm text) (mem_norm hws hlc h))]
  · simp only [analyze_message, h1, if_true]
    simp

theorem k_char_fires_withdrawal_witness :
    ('k' ∈ chars "thank you") ∧
    (contains_any (chars "thank you") NEG_EMO_WORDS = true ∧
     withdrawIncrement (chars "thank you") = 25/100 ∧
     withdrawSignal ∈ (analyze_message (chars "thank you")).signals) :=
  ⟨by decide, k_char_fires_withdrawal (chars "thank you") (by decide)⟩

/-! ## C8: empty filtered conversation -/

/-- C8: whenever the author-filtered message list is empty,
`analyze_conversation` returns the fixed neutral result. -/
theorem empty_conversation_neutral (msgs : List ConversationEntry)
    (fa : Option (List Char)) (h : filteredMessages msgs fa = []) :
    analyze_conversation msgs fa =
      { is_upset := false
        confidence := 0
        signals := []
        reason := chars "No messages to analyze."
        suggested_action := chars "Ask a gentle, open question to invite sharing." } := by
  unfold analyze_conversation
  rw [h]
  rfl

theorem empty_conversation_neutral_witness :
    filteredMessages [⟨chars "hi", chars "alice"⟩] (some (chars "bob")) = [] ∧
    analyze_conversation [⟨chars "hi", chars "alice"⟩] (some (chars "bob")) =
      { is_upset := false
        confidence := 0
        signals := []
        reason := chars "No messages to analyze."
        suggested_action := chars "Ask a gentle, open question to invite sharing." } :=
  ⟨by decide,
   empty_conversation_neutral [⟨chars "hi", chars "alice"⟩] (some (chars "bob"))
     (by decide)⟩

/-! ## C5: author filtering -/

/-- Counterexample to C5 as stated: with the empty string as
`focus_author`, the code analyzes the full list (Python's
`if focus_author:` is false for `""`), not the — here empty — sublist of
entries whose author equals `""`; the observable results differ. -/
theorem empty_focus_author_counterexample :
    filteredMessages [⟨chars "whatever.", chars "bob"⟩] (some []) =
      [⟨chars "whatever.", chars "bob"⟩] ∧
    List.filter (fun m : ConversationEntry => m.author == ([] : List Char))
      [⟨chars "whatever.", chars "bob"⟩] = [] ∧
    analyze_conversation [⟨chars "whatever.", chars "bob"⟩] (some []) ≠
      analyze_conversation
        (List.filter (fun m : ConversationEntry => m.author == ([] : List Char))
          [⟨chars "whatever.", chars "bob"⟩]) none := by
  refine ⟨rfl, rfl, fun h => ?_⟩
  have hproj := congrArg AnalysisResult.is_upset h
  exact absurd hproj (by decide)

/-- C5 as amended: a non-empty `focus_author` filters to the entries whose
author equals it, preserving order; an absent or empty `focus_author`
leaves the full list, in order. -/
theorem filtering_by_author (msgs : List ConversationEntry) (fa : List Char) :
    (fa ≠ [] →
      filteredMessages msgs (some fa) = msgs.filter (fun m => m.author == fa)) ∧
    filteredMessages msgs none = msgs ∧
    filteredMessages msgs (some []) = msgs := by
  refine ⟨fun h => ?_, rfl, rfl⟩
  have hdef : filteredMessages msgs (some fa) =
      if fa.isEmpty then msgs else msgs.filter (fun m => m.author == fa) := rfl
  rw [hdef, if_neg]
  simp only [List.isEmpty_iff]
  exact h

theorem filtering_by_author_witness :
    filteredMessages
        [⟨chars "hi", chars "bob"⟩, ⟨chars "yo", chars "eve"⟩]
        (some (chars "bob")) =
      List.filter (fun m => m.author == chars "bob")
        [⟨chars "hi", chars "bob"⟩, ⟨chars "yo", chars "eve"⟩] :=
  (filtering_by_author
      [⟨chars "hi", chars "bob"⟩, ⟨chars "yo", chars "eve"⟩]
      (chars "bob")).1 (by decide)

/-! ## Normalization is idempotent

`norm` output has no edge whitespace, no two adjacent whitespace
characters, only the space character as whitespace, and no uppercase ASCII
letters; a string with those properties is a fixed point of `norm`. -/

theorem toLower_eq_of_upper {c : Char} (h1 : 65 ≤ c.toNat) (h2 : c.toNat ≤ 90) :
    Char.toLower c = Char.ofNat (c.toNat + 32) := by
  simp only [Char.toLower]
  rw [if_pos ⟨h1, h2⟩]

theorem toLower_eq_self {c : Char} (h : ¬(65 ≤ c.toNat ∧ c.toNat ≤ 90)) :
    Char.toLower c = c := by
  simp only [Char.toLower]
  rw [if_neg h]

theorem ofNat_lower_props {n : Nat} (h1 : 97 ≤ n) (h2 : n ≤ 122) :
    isWs (Char.ofNat n) = false ∧ Char.toLower (Char.ofNat n) = Char.ofNat n := by
  interval_cases n <;> exact ⟨by decide, by decide⟩

theorem isWs_eq_false_of_upper {c : Char} (h : 65 ≤ c.toNat) : isWs c = false := by
  have key : ∀ d : Char, d.toNat < 65 → (c == d) = false := by
    intro d hd
    refine beq_eq_false_iff_ne.2 (fun he => ?_)
    subst he
    omega
  simp only [isWs, key ' ' (by decide), key '\t' (by decide), key '\n' (by decide),
    key '\r' (by decide), key '\x0b' (by decide), key '\x0c' (by decide),
    Bool.or_false]

theorem toLower_isWs (c : Char) : isWs (Char.toLower c) = isWs c := by
  by_cases h : 65 ≤ c.toNat ∧ c.toNat ≤ 90
  · rw [toLower_eq_of_upper h.1 h.2,
      (ofNat_lower_props (by omega) (by omega)).1,
      isWs_eq_false_of_upper h.1]
  · rw [toLower_eq_self h]

theorem toLower_idem (c : Char) : Char.toLower (Char.toLower c) = Char.toLower c := by
  by_cases h : 65 ≤ c.toNat ∧ c.toNat ≤ 90
  · rw [toLower_eq_of_upper h.1 h.2, (ofNat_lower_props (by omega) (by omega)).2]
  · rw [toLower_eq_self h, toLower_eq_self h]

/-- All characters fixed by lowercasing. -/
def lowered (l : List Char) : Bool := l.all (fun c => Char.toLower c == c)

/-- Every whitespace character is the plain space. -/
def wsSpace (l : List Char) : Bool := l.all (fun c => !isWs c || c == ' ')

/-- No two adjacent whitespace characters. -/
def noDoubleWs : List Char → Bool
  | [] => true
  | [_] => true
  | c :: d :: rest => !(isWs c && isWs d) && noDoubleWs (d :: rest)

/-- The first character, when present, is not whitespace. -/
def headNonWs : List Char → Bool
  | [] => true
  | c :: _ => !isWs c

/-- The last character, when present, is not whitespace. -/
def lastNonWs (l : List Char) : Bool := headNonWs l.reverse

theorem map_toLower_eq_self {l : List Char} (h : lowered l = true) :
    l.map Char.toLower = l := by
  induction l with
  | nil => rfl
  | cons c rest ih =>
    rw [lowered, List.all_cons, Bool.and_eq_true] at h
    rw [List.map_cons, beq_iff_eq.1 h.1, ih h.2]

theorem dropWhile_eq_self_of_headNonWs {l : List Char} (h : headNonWs l = true) :
    l.dropWhile isWs = l := by
  cases l with
  | nil => rfl
  | cons c rest =>
    rw [headNonWs, Bool.not_eq_eq_eq_not, Bool.not_true] at h
    rw [List.dropWhile_cons_of_neg (by simp [h])]

theorem stripWs_eq_self {l : List Char} (h1 : headNonWs l = true)
    (h2 : lastNonWs l = true) : stripWs l = l := by
  unfold stripWs
  rw [dropWhile_eq_self_of_headNonWs h1, dropWhile_eq_self_of_headNonWs h2,
    List.reverse_reverse]

theorem lastNonWs_cons_cons {c d : Char} {rest : List Char} :
    lastNonWs (c :: d :: rest) = lastNonWs (d :: rest) := by
  unfold lastNonWs
  rw [List.reverse_cons (a := c)]
  cases hrev : (d :: rest).reverse with
  | nil => exact absurd hrev (by simp)
  | cons x xs => simp [headNonWs]

theorem collapseWs_eq_self : ∀ {l : List Char}, noDoubleWs l = true →
    wsSpace l = true → lastNonWs l = true → collapseWs l = l := by
  intro l
  induction l with
  | nil => intro _ _ _; rfl
  | cons c rest ih =>
    intro hnd hws hlast
    cases rest with
    | nil =>
      have hc : isWs c = false := by
        have h := hlast
        rw [lastNonWs] at h
        simp only [List.reverse_cons, List.reverse_nil, List.nil_append] at h
        rw [headNonWs, Bool.not_eq_eq_eq_not, Bool.not_true] at h
        exact h
      simp [collapseWs, hc]
    | cons d rest2 =>
      rw [noDoubleWs, Bool.and_eq_true] at hnd
      rw [wsSpace, List.all_cons, Bool.and_eq_true] at hws
      rw [lastNonWs_cons_cons] at hlast
      have htail : collapseWs (d :: rest2) = d :: rest2 :=
        ih hnd.2 hws.2 hlast
      have hnand : (isWs c && isWs d) = false := by
        rcases Bool.eq_false_or_eq_true (isWs c && isWs d) with h' | h'
        · rw [h'] at hnd
          exact absurd hnd.1 (by decide)
        · exact h'
      rw [collapseWs, if_neg (by simp [hnand]), htail]
      congr 1
      by_cases hc : isWs c = true
      · have : (c == ' ') = true := by
          have h1 := hws.1
          rw [hc] at h1
          simpa using h1
        rw [if_pos hc]
        exact (beq_iff_eq.1 this).symm
      · rw [if_neg hc]

theorem collapseWs_cons_head : ∀ (d : Char) (rest : List Char),
    ∃ c' out, collapseWs (d :: rest) = c' :: out ∧ isWs c' = isWs d := by
  intro d rest
  induction rest generalizing d with
  | nil =>
    by_cases h : isWs d = true
    · exact ⟨' ', [], by simp [collapseWs, h], by rw [h]; decide⟩
    · rw [Bool.not_eq_true] at h
      exact ⟨d, [], by simp [collapseWs, h], rfl⟩
  | cons e rest2 ih =>
    by_cases h : isWs d = true ∧ isWs e = true
    · obtain ⟨c', out, heq, hws⟩ := ih e
      refine ⟨c', out, ?_, by rw [hws, h.2, h.1]⟩
      rw [collapseWs, if_pos (by simp [h.1, h.2]), heq]
    · refine ⟨if isWs d then ' ' else d, collapseWs (e :: rest2), ?_, ?_⟩
      · rw [collapseWs, if_neg (by simpa [Bool.and_eq_true] using h)]
      · by_cases hd : isWs d = true
        · rw [if_pos hd, hd]; decide
        · rw [if_neg hd]

theorem collapseWs_mem : ∀ {l : List Char} {x : Char}, x ∈ collapseWs l →
    x = ' ' ∨ (x ∈ l ∧ isWs x = false) := by
  intro l
  induction l with
  | nil => intro x hx; simp [collapseWs] at hx
  | cons c rest ih =>
    intro x hx
    cases rest with
    | nil =>
      by_cases h : isWs c = true
      · left
        simpa [collapseWs, h] using hx
      · right
        rw [Bool.not_eq_true] at h
        have : x = c := by simpa [collapseWs, h] using hx
        exact ⟨by simp [this], this ▸ h⟩
    | cons d rest2 =>
      rw [collapseWs] at hx
      by_cases h : (isWs c && isWs d) = true
      · rw [if_pos h] at hx
        rcases ih hx with h' | ⟨hm, hw⟩
        · exact Or.inl h'
        · exact Or.inr ⟨List.mem_cons_of_mem _ hm, hw⟩
      · rw [if_neg h] at hx
        rcases List.mem_cons.1 hx with hxe | hx'
        · by_cases hc : isWs c = true
          · left
            rw [hxe, if_pos hc]
          · right
            rw [Bool.not_eq_true] at hc
            rw [hxe, if_neg (by simp [hc])]
            exact ⟨List.mem_cons_self _ _, hc⟩
        · rcases ih hx' with h' | ⟨hm, hw⟩
          · exact Or.inl h'
          · exact Or.inr ⟨List.mem_cons_of_mem _ hm, hw⟩

theorem wsSpace_collapseWs (l : List Char) : wsSpace (collapseWs l) = true := by
  rw [wsSpace, List.all_eq_true]
  intro x hx
  rcases collapseWs_mem hx with rfl | ⟨_, hw⟩
  · decide
  · simp [hw]

theorem lowered_collapseWs {l : List Char} (h : lowered l = true) :
    lowered (collapseWs l) = true := by
  rw [lowered, List.all_eq_true]
  intro x hx
  rcases collapseWs_mem hx with rfl | ⟨hm, _⟩
  · decide
  · rw [lowered, List.all_eq_true] at h
    exact h x hm

theorem noDoubleWs_collapseWs : ∀ l : List Char, noDoubleWs (collapseWs l) = true := by
  intro l
  induction l with
  | nil => rfl
  | cons c rest ih =>
    cases rest with
    | nil =>
      by_cases h : isWs c = true
      · simp [collapseWs, h, noDoubleWs]
      · rw [Bool.not_eq_true] at h
        simp [collapseWs, h, noDoubleWs]
    | cons d rest2 =>
      rw [collapseWs]
      by_cases h : (isWs c && isWs d) = true
      · rw [if_pos h]
        exact ih
      · rw [if_neg h]
        obtain ⟨c'', out, heq, hws⟩ := collapseWs_cons_head d rest2
        rw [heq]
        rw [heq] at ih
        rw [noDoubleWs, Bool.and_eq_true]
        refine ⟨?_, ih⟩
        have hc' : isWs (if isWs c then ' ' else c) = isWs c := by
          by_cases hc : isWs c = true
          · rw [if_pos hc, hc]; decide
          · rw [if_neg hc]
        have h' : (isWs c && isWs d) = false := Bool.eq_false_iff.2 h
        rw [hc', hws, h']
        rfl

theorem ws_eq_of_ite (c : Char) : isWs (if isWs c then ' ' else c) = isWs c := by
  by_cases hc : isWs c = true
  · rw [if_pos hc, hc]; decide
  · rw [if_neg hc]

theorem headNonWs_collapseWs {l : List Char} (h : headNonWs l = true) :
    headNonWs (collapseWs l) = true := by
  cases l with
  | nil => rfl
  | cons c rest =>
    rw [headNonWs] at h
    obtain ⟨c', out, heq, hws⟩ := collapseWs_cons_head c rest
    rw [heq, headNonWs, hws]
    exact h

theorem lastNonWs_collapseWs : ∀ {l : List Char}, lastNonWs l = true →
    lastNonWs (collapseWs l) = true := by
  intro l
  induction l with
  | nil => intro _; rfl
  | cons c rest ih =>
    intro h
    cases rest with
    | nil =>
      have hc : isWs c = false := by
        rw [lastNonWs] at h
        simp only [List.reverse_cons, List.reverse_nil, List.nil_append] at h
        rw [headNonWs, Bool.not_eq_eq_eq_not, Bool.not_true] at h
        exact h
      simp [collapseWs, hc]
      rw [lastNonWs]
      simp only [List.reverse_cons, List.reverse_nil, List.nil_append]
      rw [headNonWs, hc]
      rfl
    | cons d rest2 =>
      rw [lastNonWs_cons_cons] at h
      rw [collapseWs]
      by_cases hcd : (isWs c && isWs d) = true
      · rw [if_pos hcd]
        exact ih h
      · rw [if_neg hcd]
        have htail := ih h
        obtain ⟨c'', out, heq, _⟩ := collapseWs_cons_head d rest2
        rw [heq]
        rw [heq] at htail
        rw [lastNonWs_cons_cons]
        exact htail

theorem headNonWs_dropWhile (l : List Char) : headNonWs (l.dropWhile isWs) = true := by
  induction l with
  | nil => rfl
  | cons c rest ih =>
    by_cases h : isWs c = true
    · rw [List.dropWhile_cons_of_pos h]
      exact ih
    · rw [Bool.not_eq_true] at h
      rw [List.dropWhile_cons_of_neg (by simp [h]), headNonWs, h]
      rfl

theorem headNonWs_of_prefix {l₁ l₂ : List Char} (hp : l₁ <+: l₂)
    (h : headNonWs l₂ = true) : headNonWs l₁ = true := by
  cases l₁ with
  | nil => rfl
  | cons c t =>
    obtain ⟨rest, hrest⟩ := hp
    rw [← hrest, List.cons_append, headNonWs] at h
    rw [headNonWs]
    exact h

theorem lastNonWs_stripWs (l : List Char) : lastNonWs (stripWs l) = true := by
  unfold stripWs lastNonWs
  rw [List.reverse_reverse]
  exact headNonWs_dropWhile _

theorem headNonWs_stripWs (l : List Char) : headNonWs (stripWs l) = true := by
  have hp : ((l.dropWhile isWs).reverse.dropWhile isWs).reverse <+:
      (l.dropWhile isWs).reverse.reverse :=
    List.reverse_prefix.2 (List.dropWhile_suffix isWs)
  rw [List.reverse_reverse] at hp
  exact headNonWs_of_prefix hp (headNonWs_dropWhile l)

theorem lowered_map_toLower (l : List Char) : lowered (l.map Char.toLower) = true := by
  rw [lowered, List.all_eq_true]
  intro x hx
  obtain ⟨y, _, rfl⟩ := List.mem_map.1 hx
  exact beq_iff_eq.2 (toLower_idem y)

theorem headNonWs_map_toLower {l : List Char} (h : headNonWs l = true) :
    headNonWs (l.map Char.toLower) = true := by
  cases l with
  | nil => rfl
  | cons c rest =>
    rw [List.map_cons, headNonWs, toLower_isWs]
    exact h

theorem lastNonWs_map_toLower {l : List Char} (h : lastNonWs l = true) :
    lastNonWs (l.map Char.toLower) = true := by
  rw [lastNonWs, ← List.map_reverse]
  rw [lastNonWs] at h
  exact headNonWs_map_toLower h

theorem norm_props (l : List Char) :
    headNonWs (norm l) = true ∧ lastNonWs (norm l) = true ∧
    noDoubleWs (norm l) = true ∧ wsSpace (norm l) = true ∧
    lowered (norm l) = true := by
  unfold norm
  exact ⟨headNonWs_collapseWs (headNonWs_map_toLower (headNonWs_stripWs l)),
    lastNonWs_collapseWs (lastNonWs_map_toLower (lastNonWs_stripWs l)),
    noDoubleWs_collapseWs _, wsSpace_collapseWs _,
    lowered_collapseWs (lowered_map_toLower _)⟩

/-- Normalization is idempotent: the source normalizes some inputs twice
(`hostility_score` and `suggest_action` pass already-normalized text into
detectors that normalize again), which is harmless. -/
theorem norm_idem (l : List Char) : norm (norm l) = norm l := by
  obtain ⟨h1, h2, h3, h4, h5⟩ := norm_props l
  nth_rewrite 1 [norm]
  rw [stripWs_eq_self h1 h2, map_toLower_eq_self h5, collapseWs_eq_self h3 h4 h2]

/-- Substring detectors applied to already-normalized text agree with the
detectors applied to the raw text. -/
theorem contains_any_norm (x : List Char) (bag : List (List Char)) :
    contains_any (norm x) bag = contains_any x bag := by
  unfold contains_any
  rw [norm_idem]

/-! ## Searching in the space-joined signal list

The recommender greps `" ".join(signals)` for `"hurt/accusatory"`.  Because
the needle contains no space, a match inside the join never straddles the
separator, so it is equivalent to a match inside a single signal string. -/

theorem prefix_append_cons {n a b : List Char} {c : Char} (hc : c ∉ n)
    (h : n <+: a ++ c :: b) : n <+: a := by
  induction n generalizing a with
  | nil => exact List.nil_prefix
  | cons x n' ih =>
    cases a with
    | nil =>
      rw [List.nil_append] at h
      obtain ⟨he, -⟩ := List.cons_prefix_cons.1 h
      exact absurd (he ▸ List.mem_cons_self x n') hc
    | cons y a' =>
      rw [List.cons_append] at h
      obtain ⟨rfl, h'⟩ := List.cons_prefix_cons.1 h
      have hc' : c ∉ n' := fun hm => hc (List.mem_cons_of_mem _ hm)
      exact List.cons_prefix_cons.2 ⟨rfl, ih hc' h'⟩

theorem infix_append_cons {n a b : List Char} {c : Char} (hc : c ∉ n) :
    n <:+: a ++ c :: b ↔ n <:+: a ∨ n <:+: b := by
  constructor
  · intro h
    induction a with
    | nil =>
      rw [List.nil_append] at h
      rcases List.infix_cons_iff.1 h with hp | hi
      · cases n with
        | nil => exact Or.inl List.nil_infix
        | cons x n' =>
          obtain ⟨he, -⟩ := List.cons_prefix_cons.1 hp
          exact absurd (he ▸ List.mem_cons_self x n') hc
      · exact Or.inr hi
    | cons y a' ih =>
      rw [List.cons_append] at h
      rcases List.infix_cons_iff.1 h with hp | hi
      · have hp' : n <+: (y :: a') ++ c :: b := by
          rw [List.cons_append]
          exact hp
        exact Or.inl (prefix_append_cons hc hp').isInfix
      · rcases ih hi with h' | h'
        · exact Or.inl (List.infix_cons h')
        · exact Or.inr h'
  · rintro (h | h)
    · exact h.trans ⟨[], c :: b, by simp⟩
    · exact h.trans ⟨a ++ [c], [], by simp⟩

theorem isSubstring_joinSp (n : List Char) (hsp : ' ' ∉ n) (hne : n ≠ []) :
    ∀ sigs : List (List Char),
      isSubstring n (joinSp sigs) = sigs.any (fun s => isSubstring n s) := by
  intro sigs
  induction sigs with
  | nil =>
    have : isSubstring n [] = n.isEmpty := rfl
    rw [joinSp, this]
    simp [List.isEmpty_iff, hne]
  | cons s rest ih =>
    cases rest with
    | nil => simp [joinSp]
    | cons t rest2 =>
      rw [joinSp, Bool.eq_iff_iff]
      rw [isSubstring_iff, infix_append_cons hsp]
      rw [List.any_cons, Bool.or_eq_true, ← ih, ← isSubstring_iff, ← isSubstring_iff]

/-- The hurt-tag search in the joined signals equals a per-signal search. -/
theorem hurtTag_join (sigs : List (List Char)) :
    isSubstring hurtTag (joinSp sigs) = sigs.any (fun s => isSubstring hurtTag s) :=
  isSubstring_joinSp hurtTag (by decide) (by decide) sigs

/-! ## C7: the action recommender's decision tree -/

/-- The medium/high confidence bands of the source collapse to a single
`0.55` threshold, as the spec states. -/
theorem med_high_iff (c : ℚ) :
    (decide (11/20 ≤ c ∧ c < 7/10) || decide (7/10 ≤ c)) = decide (11/20 ≤ c) := by
  by_cases h7 : (7:ℚ)/10 ≤ c
  · have h11 : (11:ℚ)/20 ≤ c := le_trans (by norm_num) h7
    simp [h7, h11]
  · have hlt : c < 7/10 := not_le.1 h7
    simp [h7, hlt]

/-- The Action Recommender exactly as claim C7 words it: five branches in
priority order, the signal check phrased per signal string, the 0.55
threshold phrased directly. -/
def claimSuggestAction (text : List Char) (signals : List (List Char))
    (confidence : ℚ) : List Char :=
  if contains_any text HURT_CUES || signals.any (fun s => isSubstring hurtTag s) then
    ownAndApologize
  else if is_short_dry text || contains_any text NEG_EMO_WORDS then
    (if decide (11/20 ≤ confidence) then acknowledgeAndInvite else clarifyGently)
  else if repeated_punct text || count_emojis text > 0 then
    acknowledgeAndInvite
  else if ellipsis_like text then
    (if decide (11/20 ≤ confidence) then offerSpace else clarifyGently)
  else clarifyGently

/-- C7: the recommender evaluates the five branches in exactly the stated
priority order with the stated conditions and thresholds. -/
theorem suggest_action_matches_spec_tree (text : List Char)
    (signals : List (List Char)) (confidence : ℚ) :
    suggest_action text signals confidence =
      claimSuggestAction text signals confidence := by
  simp only [suggest_action, claimSuggestAction, contains_any_norm,
    hurtTag_join, med_high_iff]

/-! ## Properties of first-occurrence deduplication -/

theorem dedupFirst_mem {α : Type} [DecidableEq α] (x : α) :
    ∀ (l seen : List α), x ∈ dedupFirst seen l ↔ (x ∈ l ∧ x ∉ seen) := by
  intro l
  induction l with
  | nil => intro seen; simp [dedupFirst]
  | cons a rest ih =>
    intro seen
    rw [dedupFirst]
    by_cases h : a ∈ seen
    · rw [if_pos h, ih]
      constructor
      · rintro ⟨hm, hs⟩
        exact ⟨List.mem_cons_of_mem _ hm, hs⟩
      · rintro ⟨hm, hs⟩
        rcases List.mem_cons.1 hm with rfl | hm'
        · exact absurd h hs
        · exact ⟨hm', hs⟩
    · rw [if_neg h]
      constructor
      · intro hx
        rcases List.mem_cons.1 hx with rfl | hx'
        · exact ⟨List.mem_cons_self _ _, h⟩
        · obtain ⟨hm, hs⟩ := (ih _).1 hx'
          exact ⟨List.mem_cons_of_mem _ hm,
            fun hx'' => hs (List.mem_cons_of_mem _ hx'')⟩
      · rintro ⟨hm, hs⟩
        rcases List.mem_cons.1 hm with rfl | hm'
        · exact List.mem_cons_self _ _
        · by_cases hxa : x = a
          · subst hxa
            exact List.mem_cons_self _ _
          · refine List.mem_cons_of_mem _ ((ih _).2 ⟨hm', fun hx'' => ?_⟩)
            rcases List.mem_cons.1 hx'' with h' | h'
            · exact hxa h'
            · exact hs h'

theorem dedupFirst_nodup {α : Type} [DecidableEq α] :
    ∀ (l seen : List α), (dedupFirst seen l).Nodup := by
  intro l
  induction l with
  | nil => intro seen; exact List.nodup_nil
  | cons a rest ih =>
    intro seen
    rw [dedupFirst]
    split
    · exact ih _
    · refine List.nodup_cons.2 ⟨fun hmem => ?_, ih _⟩
      exact ((dedupFirst_mem a _ _).1 hmem).2 (List.mem_cons_self _ _)

theorem dedupFirst_sublist {α : Type} [DecidableEq α] :
    ∀ (l seen : List α), List.Sublist (dedupFirst seen l) l := by
  intro l
  induction l with
  | nil => intro seen; simp [dedupFirst]
  | cons a rest ih =>
    intro seen
    rw [dedupFirst]
    split
    · exact (ih _).cons _
    · exact (ih _).cons₂ _

/-- Index of the first occurrence of `x`. -/
def firstIdx {α : Type} [DecidableEq α] (x : α) : List α → Nat
  | [] => 0
  | a :: rest => if a = x then 0 else firstIdx x rest + 1

theorem firstIdx_cons_self {α : Type} [DecidableEq α] (x : α) (l : List α) :
    firstIdx x (x :: l) = 0 := by
  rw [firstIdx, if_pos rfl]

theorem firstIdx_cons_ne {α : Type} [DecidableEq α] {a x : α} (l : List α)
    (h : a ≠ x) : firstIdx x (a :: l) = firstIdx x l + 1 := by
  rw [firstIdx, if_neg h]

/-- Deduplication keeps first occurrences: the order of the kept elements
is the order of their first occurrences in the input. -/
theorem dedupFirst_idxOf : ∀ {α : Type} [DecidableEq α] (l seen : List α)
    (x y : α), x ∈ dedupFirst seen l → y ∈ dedupFirst seen l →
    (firstIdx x (dedupFirst seen l) < firstIdx y (dedupFirst seen l) ↔
     firstIdx x l < firstIdx y l) := by
  intro α _ l
  induction l with
  | nil =>
    intro seen x y hx _
    simp [dedupFirst] at hx
  | cons a rest ih =>
    intro seen x y hx hy
    by_cases h : a ∈ seen
    · rw [dedupFirst, if_pos h] at hx hy ⊢
      have hxs : x ∉ seen := ((dedupFirst_mem x _ _).1 hx).2
      have hys : y ∉ seen := ((dedupFirst_mem y _ _).1 hy).2
      have hxa : a ≠ x := fun he => hxs (he ▸ h)
      have hya : a ≠ y := fun he => hys (he ▸ h)
      rw [firstIdx_cons_ne _ hxa, firstIdx_cons_ne _ hya,
        Nat.add_lt_add_iff_right]
      exact ih seen x y hx hy
    · rw [dedupFirst, if_neg h] at hx hy ⊢
      by_cases hxa : x = a
      · subst hxa
        rw [firstIdx_cons_self, firstIdx_cons_self]
        by_cases hya : y = x
        · subst hya
          rw [firstIdx_cons_self, firstIdx_cons_self]
        · have hyx : x ≠ y := fun he => hya he.symm
          rw [firstIdx_cons_ne _ hyx, firstIdx_cons_ne _ hyx]
          simp
      · have hx' : x ∈ dedupFirst (a :: seen) rest := by
          rcases List.mem_cons.1 hx with h' | h'
          · exact absurd h' hxa
          · exact h'
        have hax : a ≠ x := fun he => hxa he.symm
        by_cases hya : y = a
        · subst hya
          rw [firstIdx_cons_self, firstIdx_cons_self,
            firstIdx_cons_ne _ hax, firstIdx_cons_ne _ hax]
          simp
        · have hy' : y ∈ dedupFirst (a :: seen) rest := by
            rcases List.mem_cons.1 hy with h' | h'
            · exact absurd h' hya
            · exact h'
          have hay : a ≠ y := fun he => hya he.symm
          rw [firstIdx_cons_ne _ hax, firstIdx_cons_ne _ hay,
            firstIdx_cons_ne _ hax, firstIdx_cons_ne _ hay,
            Nat.add_lt_add_iff_right, Nat.add_lt_add_iff_right]
          exact ih (a :: seen) x y hx' hy'

/-- Deduplication does not change `any`-searches over the signals. -/
theorem dedupFirst_any {α : Type} [DecidableEq α] (p : α → Bool) (l : List α) :
    (dedupFirst [] l).any p = l.any p := by
  rw [Bool.eq_iff_iff, List.any_eq_true, List.any_eq_true]
  constructor
  · rintro ⟨x, hx, hp⟩
    exact ⟨x, ((dedupFirst_mem x l []).1 hx).1, hp⟩
  · rintro ⟨x, hx, hp⟩
    exact ⟨x, (dedupFirst_mem x l []).2 ⟨hx, by simp⟩, hp⟩

/-- The recommender reads the signals only through the hurt-tag search, so
passing the non-deduplicated conversation signals (as the source does)
gives the same action as passing the deduplicated list. -/
theorem suggest_action_dedup (t : List Char) (sigs : List (List Char)) (c : ℚ) :
    suggest_action t (dedupFirst [] sigs) c = suggest_action t sigs c := by
  simp only [suggest_action, hurtTag_join, dedupFirst_any]

/-! ## C6: the negation detector -/

/-- Claim-side reading of a whole-word match: the token occurs with no word
character immediately before or after it. -/
def WholeWordOccurs (tok l : List Char) : Prop :=
  ∃ a b, l = a ++ tok ++ b ∧
    (∀ c, a.getLast? = some c → isWordChar c = false) ∧
    (∀ c, b.head? = some c → isWordChar c = false)

theorem nonWordEdge_iff {o : Option Char} :
    nonWordEdge o = true ↔ ∀ c, o = some c → isWordChar c = false := by
  cases o with
  | none => simp [nonWordEdge]
  | some c =>
    rw [nonWordEdge]
    constructor
    · intro h d hd
      cases hd
      rcases Bool.eq_false_or_eq_true (isWordChar c) with h' | h'
      · rw [h'] at h
        exact absurd h (by decide)
      · exact h'
    · intro h
      rw [h c rfl]
      rfl

/-- The offset-scanning search finds a boundary-delimited token exactly when
some token of the list occurs as a whole word. -/
theorem wordTokenSearch_iff (toks : List (List Char)) (l : List Char) :
    wordTokenSearch toks l = true ↔ ∃ tok ∈ toks, WholeWordOccurs tok l := by
  unfold wordTokenSearch
  rw [List.any_eq_true]
  constructor
  · rintro ⟨i, _, hcond⟩
    rw [Bool.and_eq_true] at hcond
    obtain ⟨hb, hany⟩ := hcond
    obtain ⟨tok, htok, hmatch⟩ := List.any_eq_true.1 hany
    rw [Bool.and_eq_true] at hmatch
    obtain ⟨hpre, hafter⟩ := hmatch
    obtain ⟨b, hb'⟩ := List.isPrefixOf_iff_prefix.1 hpre
    refine ⟨tok, htok, l.take i, b, ?_, ?_, ?_⟩
    · rw [List.append_assoc, hb', List.take_append_drop]
    · rw [boundaryBeforeAt, nonWordEdge_iff] at hb
      exact hb
    · rw [boundaryAfter, nonWordEdge_iff] at hafter
      rw [← hb', List.drop_left] at hafter
      exact hafter
  · rintro ⟨tok, htok, a, b, rfl, hbefore, hafter⟩
    refine ⟨a.length, ?_, ?_⟩
    · rw [List.mem_range]
      have : a.length ≤ (a ++ tok ++ b).length := by
        simp [List.length_append]
      omega
    · rw [Bool.and_eq_true]
      refine ⟨?_, ?_⟩
      · rw [boundaryBeforeAt, List.append_assoc, List.take_left, nonWordEdge_iff]
        exact hbefore
      · refine List.any_eq_true.2 ⟨tok, htok, ?_⟩
        rw [Bool.and_eq_true, List.append_assoc, List.drop_left]
        refine ⟨List.isPrefixOf_iff_prefix.2 ⟨b, rfl⟩, ?_⟩
        rw [boundaryAfter, List.drop_left, nonWordEdge_iff]
        exact hafter

/-- Counterexample to C6 as stated: the claim counts the straight-apostrophe
spelling "don't" among the matched tokens, but the source's regex contains
only the curly-apostrophe `don’t` and the bare `dont`, so a text in which
straight-apostrophe "don't" occurs as a whole word does not fire the
negation detector. -/
theorem negation_straight_apostrophe_counterexample :
    WholeWordOccurs (chars "don't") (norm (chars "i don't care")) ∧
    negations_present (chars "i don't care") = false := by
  constructor
  · refine ⟨chars "i ", chars " care", by decide, ?_, ?_⟩
    · intro c hc
      have h' : some ' ' = some c := hc
      cases h'
      decide
    · intro c hc
      have h' : some ' ' = some c := hc
      cases h'
      decide
  · decide

/-- C6 as amended: the detector fires exactly when one of the regex's own
tokens — `no`, `not`, `don’t` (curly apostrophe), `dont`, `never`,
`nothing`, `noway` — occurs as a whole word in the normalized text; the
curly spelling `don’t` and the bare `dont` both match, the
straight-apostrophe spelling `don't` does not. -/
theorem negation_detector_characterization :
    (∀ text : List Char, negations_present text = true ↔
      ∃ tok ∈ NEG_TOKENS, WholeWordOccurs tok (norm text)) ∧
    negations_present (chars "i don’t care") = true ∧
    negations_present (chars "i dont care") = true ∧
    negations_present (chars "i don't care") = false :=
  ⟨fun text => wordTokenSearch_iff NEG_TOKENS (norm text),
   by decide, by decide, by decide⟩

/-! ## C3: the conversation's weighted-average confidence -/

/-- The spec's recency weights `w_i = 0.6 + 0.4 * (i+1)/n`, without the
code's `max(1, n)` guard (redundant for non-empty lists). -/
def specWeights (n : Nat) : List ℚ :=
  (List.range n).map (fun i : Nat => 3/5 + (2/5) * ((i : ℚ) + 1) / (n : ℚ))

/-- The spec's aggregate confidence `sum(c_i * w_i) / sum(w_i)` over the
per-message confidences, without the code's `max(total_w, 1e-9)` guard. -/
def specAvg (filtered : List ConversationEntry) : ℚ :=
  (List.zipWith (fun c w => c * w)
    (filtered.map (fun m => (analyze_message m.text).confidence))
    (specWeights filtered.length)).sum /
  (specWeights filtered.length).sum

theorem convoWeights_eq_spec {n : Nat} (hn : n ≠ 0) :
    convoWeights n = specWeights n := by
  unfold convoWeights specWeights
  have h : max 1 n = n := Nat.max_eq_right (Nat.one_le_iff_ne_zero.2 hn)
  simp only [h]

theorem list_sum_nonneg : ∀ {l : List ℚ}, (∀ x ∈ l, 0 ≤ x) → 0 ≤ l.sum := by
  intro l
  induction l with
  | nil => intro _; simp
  | cons a t ih =>
    intro h
    rw [List.sum_cons]
    have ha := h a (List.mem_cons_self _ _)
    have ht := ih (fun x hx => h x (List.mem_cons_of_mem _ hx))
    linarith

theorem specWeights_elem_ge {n : Nat} (hn : n ≠ 0) :
    ∀ w ∈ specWeights n, (3/5 : ℚ) ≤ w := by
  intro w hw
  unfold specWeights at hw
  obtain ⟨i, _, rfl⟩ := List.mem_map.1 hw
  have hn' : (0:ℚ) < n := by
    exact_mod_cast Nat.pos_of_ne_zero hn
  have hterm : (0:ℚ) ≤ (2/5) * ((i : ℚ) + 1) / n := by
    apply div_nonneg
    · refine mul_nonneg (by norm_num) ?_
      exact_mod_cast Nat.zero_le (i + 1)
    · exact le_of_lt hn'
  linarith

theorem specWeights_sum_ge {n : Nat} (hn : n ≠ 0) :
    (3/5 : ℚ) ≤ (specWeights n).sum := by
  have hne : specWeights n ≠ [] := by
    intro he
    have hlen := congrArg List.length he
    rw [specWeights, List.length_map, List.length_range] at hlen
    exact hn (by simpa using hlen)
  cases hl : specWeights n with
  | nil => exact absurd hl hne
  | cons w t =>
    have hmem := specWeights_elem_ge hn
    rw [hl] at hmem
    rw [List.sum_cons]
    have hw := hmem w (List.mem_cons_self _ _)
    have ht : (0:ℚ) ≤ t.sum :=
      list_sum_nonneg (fun x hx =>
        le_trans (by norm_num) (hmem x (List.mem_cons_of_mem _ hx)))
    linarith

/-- The code's weighted average — with its `max(1, n)` and
`max(total_w, 1e-9)` guards — equals the spec's ideal formula whenever the
filtered list is non-empty. -/
theorem convoAvg_eq_specAvg {filtered : List ConversationEntry}
    (h : filtered ≠ []) : convoAvg filtered = specAvg filtered := by
  have hn : filtered.length ≠ 0 := by
    simpa [List.length_eq_zero] using h
  simp only [convoAvg, specAvg]
  rw [convoWeights_eq_spec hn, List.map_map,
    if_pos (le_trans (by norm_num) (specWeights_sum_ge hn))]
  rfl

/-! ## C9: conversation-level signals -/

theorem convoAllSignals_eq (filtered : List ConversationEntry) :
    convoAllSignals filtered =
      (filtered.map (fun m => (analyze_message m.text).signals)).flatten := by
  unfold convoAllSignals
  rw [List.map_map]
  rfl

theorem convo_signals_eq {filtered : List ConversationEntry} (h : ¬(filtered = [])) :
    (convoResult filtered).signals =
      dedupFirst []
        ((filtered.map (fun m => (analyze_message m.text).signals)).flatten) := by
  unfold convoResult
  rw [dif_neg h, convoAllSignals_eq]

/-- C9: the conversation's `signals` is the order-preserving, first-occurrence
deduplication of the concatenated per-message signal lists: it equals
`dedupFirst` of the concatenation, has no duplicates, has exactly the
members of the concatenation, is a sublist of it (order preserved), and
lists elements in the order of their first occurrences. -/
theorem conversation_signals_dedup (msgs : List ConversationEntry)
    (fa : Option (List Char)) (h : filteredMessages msgs fa ≠ []) :
    ((analyze_conversation msgs fa).signals =
      dedupFirst [] (((filteredMessages msgs fa).map
        (fun m => (analyze_message m.text).signals)).flatten)) ∧
    (analyze_conversation msgs fa).signals.Nodup ∧
    (∀ s, s ∈ (analyze_conversation msgs fa).signals ↔
      s ∈ ((filteredMessages msgs fa).map
        (fun m => (analyze_message m.text).signals)).flatten) ∧
    List.Sublist (analyze_conversation msgs fa).signals
      (((filteredMessages msgs fa).map
        (fun m => (analyze_message m.text).signals)).flatten) ∧
    (∀ x y, x ∈ (analyze_conversation msgs fa).signals →
      y ∈ (analyze_conversation msgs fa).signals →
      (firstIdx x (analyze_conversation msgs fa).signals <
         firstIdx y (analyze_conversation msgs fa).signals ↔
       firstIdx x (((filteredMessages msgs fa).map
         (fun m => (analyze_message m.text).signals)).flatten) <
       firstIdx y (((filteredMessages msgs fa).map
         (fun m => (analyze_message m.text).signals)).flatten))) := by
  have hs : (analyze_conversation msgs fa).signals =
      dedupFirst [] (((filteredMessages msgs fa).map
        (fun m => (analyze_message m.text).signals)).flatten) := by
    unfold analyze_conversation
    exact convo_signals_eq h
  refine ⟨hs, ?_, ?_, ?_, ?_⟩
  · rw [hs]
    exact dedupFirst_nodup _ _
  · intro s
    rw [hs, dedupFirst_mem]
    simp
  · rw [hs]
    exact dedupFirst_sublist _ _
  · intro x y hx hy
    rw [hs] at hx hy ⊢
    exact dedupFirst_idxOf _ _ x y hx hy

theorem conversation_signals_dedup_witness :
    filteredMessages [⟨chars "fine.", chars "a"⟩, ⟨chars "ok.", chars "a"⟩]
      none ≠ [] ∧
    (analyze_conversation [⟨chars "fine.", chars "a"⟩, ⟨chars "ok.", chars "a"⟩]
      none).signals =
      dedupFirst [] (((filteredMessages
        [⟨chars "fine.", chars "a"⟩, ⟨chars "ok.", chars "a"⟩] none).map
        (fun m => (analyze_message m.text).signals)).flatten) :=
  ⟨by decide,
   (conversation_signals_dedup [⟨chars "fine.", chars "a"⟩,
     ⟨chars "ok.", chars "a"⟩] none (by decide)).1⟩

/-! ## C10: the conversation's suggested action -/

theorem convo_action_eq {filtered : List ConversationEntry}
    (h : ¬(filtered = [])) :
    (convoResult filtered).suggested_action =
      suggest_action (filtered.getLast h).text
        ((filtered.map (fun m => (analyze_message m.text).signals)).flatten)
        (convoAvg filtered) := by
  unfold convoResult
  rw [dif_neg h, convoAllSignals_eq]

/-! ## IEEE-754 binary64 semantics

The value-level model above treats Python's float arithmetic as real
arithmetic.  That is enough for the structural claims, but the program's
verdicts compare floating-point sums against thresholds, and rounding can
move a sum across a threshold.  This layer models binary64 exactly for the
normal range: `roundB64` is correct rounding (round-to-nearest, ties to
even) of an exact rational to 53 significant bits, and each `f...`
operation is the correctly rounded exact operation, which is the IEEE
definition of the float operations.  Overflow and subnormals are not
modelled: every quantity this program computes lies many orders of
magnitude inside the normal range. -/

/-- `2^k` for an integer exponent, as a rational. -/
def qpow2 (k : ℤ) : ℚ :=
  if 0 ≤ k then ((2 ^ k.toNat : ℕ) : ℚ) else ((2 ^ (-k).toNat : ℕ) : ℚ)⁻¹

/-- Round a rational to the nearest integer, ties to even. -/
def rne (r : ℚ) : ℤ :=
  let f := ⌊r⌋
  if r - f < 1/2 then f
  else if (1:ℚ)/2 < r - f then f + 1
  else if f % 2 = 0 then f else f + 1

/-- Fuel-driven binary logarithm (`log2fuel fuel n` halves `n` at most
`fuel` times); structural recursion on the fuel keeps it reducible in the
kernel.  With `fuel = n` the fuel never runs out (`log2fuel_spec`). -/
def log2fuel : ℕ → ℕ → ℕ
  | 0, _ => 0
  | fuel + 1, n => if 2 ≤ n then log2fuel fuel (n / 2) + 1 else 0

/-- `⌊log₂ n⌋` for `n ≥ 1` (and 0 at 0). -/
def natLog2 (n : ℕ) : ℕ := log2fuel n n

/-- The binade of a positive rational: the unique `e` with
`2^e ≤ q < 2^(e+1)`, located from the bit lengths of numerator and
denominator. -/
def ilog2 (q : ℚ) : ℤ :=
  let e0 : ℤ := (natLog2 q.num.natAbs : ℤ) - (natLog2 q.den : ℤ)
  if qpow2 e0 ≤ q then e0 else e0 - 1

/-- Correct rounding of a positive rational to 53 significant bits. -/
def roundB64pos (q : ℚ) : ℚ :=
  (rne (q * qpow2 (52 - ilog2 q)) : ℚ) * qpow2 (ilog2 q - 52)

/-- Correct rounding of a rational to binary64 (normal range). -/
def roundB64 (q : ℚ) : ℚ :=
  if 0 < q then roundB64pos q
  else if q < 0 then -roundB64pos (-q)
  else 0

/-- binary64 addition: the correctly rounded exact sum. -/
def fadd (x y : ℚ) : ℚ := roundB64 (x + y)

/-- binary64 multiplication. -/
def fmul (x y : ℚ) : ℚ := roundB64 (x * y)

/-- binary64 division. -/
def fdiv (x y : ℚ) : ℚ := roundB64 (x / y)

/-- Python `sum`: a left fold of float additions starting from 0. -/
def fsum (l : List ℚ) : ℚ := l.foldl fadd 0

/-- The doubles denoted by the float literals of the source (a decimal
literal parses to the nearest double). -/
def d045 : ℚ := roundB64 (45/100)
def d015 : ℚ := roundB64 (15/100)
def d01 : ℚ := roundB64 (1/10)
def d008 : ℚ := roundB64 (8/100)
def d025 : ℚ := roundB64 (25/100)
def d022 : ℚ := roundB64 (22/100)
def d005 : ℚ := roundB64 (5/100)
def d06 : ℚ := roundB64 (3/5)
def d04 : ℚ := roundB64 (2/5)
def d07 : ℚ := roundB64 (7/10)
def d055 : ℚ := roundB64 (55/100)
def d1e9 : ℚ := roundB64 (1/1000000000)

/-- Python `round(x, 2)` on a float `x`: CPython rounds the exact decimal
value of the double to 2 places with ties to even, then converts the
resulting decimal back to the nearest double. -/
def pyRound2 (x : ℚ) : ℚ := roundB64 ((rne (x * 100) : ℚ) / 100)

/-! ## The float-exact model of the analyzers

Same structure as the value-level model above, with every float operation
correctly rounded and every float literal replaced by the double it
denotes.  The string-level detectors are shared: they involve no
arithmetic. -/

/-- `hostility_score` with binary64 accumulation (`score += w` is a float
addition; the comparison in `min(score, 1.0)` is exact on the represented
values). -/
def fhostility_score (text : List Char) : ℚ :=
  let t := norm text
  let s1 := if contains_any t HURT_CUES then fadd 0 d045 else 0
  let s2 := if negations_present t then fadd s1 d015 else s1
  let s3 := if repeated_punct t then fadd s2 d015 else s2
  let s4 := if count_emojis text > 0 then fadd s3 d01 else s3
  let s5 := if ellipsis_like text then fadd s4 d008 else s4
  let s6 := if contains_any t NEG_EMO_WORDS then fadd s5 d025 else s5
  let s7 := if is_short_dry text then fadd s6 d022 else s6
  let s8 := if missing_softeners text then fadd s7 d005 else s7
  if s8 ≤ 1 then s8 else 1

/-- `suggest_action` with the double threshold constants the program
actually compares against (`0.7` and `0.55` are not exactly representable;
`0.55` as a double is slightly above 11/20). -/
def fsuggest_action (text : List Char) (signals : List (List Char))
    (confidence : ℚ) : List Char :=
  let t := norm text
  let high := decide (d07 ≤ confidence)
  let med := decide (d055 ≤ confidence ∧ confidence < d07)
  if contains_any t HURT_CUES || isSubstring hurtTag (joinSp signals) then
    ownAndApologize
  else if is_short_dry text || contains_any t NEG_EMO_WORDS then
    (if med || high then acknowledgeAndInvite else clarifyGently)
  else if repeated_punct text || count_emojis text > 0 then
    acknowledgeAndInvite
  else if ellipsis_like text then
    (if med || high then offerSpace else clarifyGently)
  else clarifyGently

/-- `analyze_message` with binary64 arithmetic (`0.5` and `1.0` are exactly
representable, so those comparisons need no rounding). -/
def fanalyze_message (text : List Char) : AnalysisResult :=
  let s := fhostility_score text
  let signals :=
    (if contains_any text NEG_EMO_WORDS then [withdrawSignal] else []) ++
    (if is_short_dry text then [drySignal] else []) ++
    (if contains_any text HURT_CUES then [hurtSignal] else []) ++
    (if repeated_punct text then [punctSignal] else []) ++
    (if ellipsis_like text then [ellipsisSignal] else []) ++
    (if count_emojis text > 0 then [emojiSignal] else []) ++
    (if missing_softeners text then [softenerSignal] else [])
  let isUp := decide (1/2 ≤ s)
  { is_upset := isUp
    confidence := pyRound2 s
    signals := signals
    reason :=
      if isUp then chars "Message contains multiple upset signals."
      else chars "Few or weak upset signals detected."
    suggested_action := fsuggest_action text signals s }

/-- The recency weights in binary64: `0.6 + 0.4 * (idx + 1) / max(1, n)`
with the integer operands converted to the nearest double. -/
def fconvoWeights (n : Nat) : List ℚ :=
  (List.range n).map (fun idx : Nat =>
    fadd d06 (fdiv (fmul d04 (roundB64 ((idx : ℚ) + 1)))
      (roundB64 ((max 1 n : ℕ) : ℚ))))

def fconvoAllSignals (filtered : List ConversationEntry) : List (List Char) :=
  ((filtered.map (fun m => fanalyze_message m.text)).map (fun r => r.signals)).flatten

/-- The weighted average in binary64, with the source's
`max(total_w, 1e-9)` guard. -/
def fconvoAvg (filtered : List ConversationEntry) : ℚ :=
  let weights := fconvoWeights filtered.length
  let scores := (filtered.map (fun m => fanalyze_message m.text)).map
    (fun r => r.confidence)
  fdiv (fsum (List.zipWith fmul scores weights))
    (if d1e9 ≤ fsum weights then fsum weights else d1e9)

def fconvoResult (filtered : List ConversationEntry) : AnalysisResult :=
  if h : filtered = [] then neutralResult
  else
    { is_upset := decide (1/2 ≤ fconvoAvg filtered)
      confidence := pyRound2 (fconvoAvg filtered)
      signals := dedupFirst [] (fconvoAllSignals filtered)
      reason :=
        if decide (1/2 ≤ fconvoAvg filtered) then
          chars "Recent messages tilt upset."
        else chars "Tone mostly neutral."
      suggested_action :=
        fsuggest_action (filtered.getLast h).text (fconvoAllSignals filtered)
          (fconvoAvg filtered) }

/-- `analyze_conversation` in the float-exact model. -/
def fanalyze_conversation (msgs : List ConversationEntry)
    (focus_author : Option (List Char)) : AnalysisResult :=
  fconvoResult (filteredMessages msgs focus_author)

/-- The claim's weight formula in binary64, without the `max(1, n)`
guard. -/
def fspecWeights (n : Nat) : List ℚ :=
  (List.range n).map (fun idx : Nat =>
    fadd d06 (fdiv (fmul d04 (roundB64 ((idx : ℚ) + 1))) (roundB64 (n : ℚ))))

/-- The claim's aggregate `sum(c_i * w_i) / sum(w_i)` in binary64, without
the `max(total_w, 1e-9)` guard. -/
def fspecAvg (filtered : List ConversationEntry) : ℚ :=
  fdiv (fsum (List.zipWith fmul
      (filtered.map (fun m => (fanalyze_message m.text).confidence))
      (fspecWeights filtered.length)))
    (fsum (fspecWeights filtered.length))


/-! ## Correctness of the binary64 rounding model

`roundB64` is proved to be a correct rounding in the properties the claims
need: it is monotone, nonnegative on nonnegative inputs, idempotent (a
represented value rounds to itself), and `pyRound2` never moves a value
from `≥ 1/2` to `< 1/2`. -/

theorem qpow2_eq_zpow (k : ℤ) : qpow2 k = (2:ℚ) ^ k := by
  rcases le_or_lt 0 k with h | h
  · obtain ⟨n, rfl⟩ : ∃ n : ℕ, k = n := ⟨k.toNat, (Int.toNat_of_nonneg h).symm⟩
    rw [qpow2, if_pos h, Int.toNat_natCast, zpow_natCast]
    push_cast
    ring
  · obtain ⟨n, rfl⟩ : ∃ n : ℕ, k = -n := ⟨(-k).toNat, by omega⟩
    rw [qpow2, if_neg (not_le.2 h), neg_neg, Int.toNat_natCast, zpow_neg,
      zpow_natCast]
    push_cast
    ring

theorem qpow2_pos (k : ℤ) : 0 < qpow2 k := by
  rw [qpow2_eq_zpow]
  exact zpow_pos (by norm_num) k

theorem qpow2_add (a b : ℤ) : qpow2 (a + b) = qpow2 a * qpow2 b := by
  rw [qpow2_eq_zpow, qpow2_eq_zpow, qpow2_eq_zpow]
  exact zpow_add₀ (by norm_num) a b

theorem qpow2_mono {a b : ℤ} (h : a ≤ b) : qpow2 a ≤ qpow2 b := by
  rw [qpow2_eq_zpow, qpow2_eq_zpow]
  exact zpow_le_zpow_right₀ (by norm_num) h

theorem qpow2_zero : qpow2 0 = 1 := by norm_num [qpow2_eq_zpow]

theorem qpow2_succ (k : ℤ) : qpow2 (k + 1) = qpow2 k * 2 := by
  rw [qpow2_add]
  norm_num [qpow2_eq_zpow]

theorem qpow2_52 : qpow2 (52 : ℤ) = ((2 ^ 52 : ℤ) : ℚ) := by
  rw [qpow2_eq_zpow]
  norm_num

theorem qpow2_53 : qpow2 (53 : ℤ) = ((2 ^ 53 : ℤ) : ℚ) := by
  rw [qpow2_eq_zpow]
  norm_num

theorem rne_def (r : ℚ) : rne r =
    (if r - ⌊r⌋ < 1/2 then ⌊r⌋
     else if (1:ℚ)/2 < r - ⌊r⌋ then ⌊r⌋ + 1
     else if ⌊r⌋ % 2 = 0 then ⌊r⌋ else ⌊r⌋ + 1) := rfl

theorem floor_le_rne (r : ℚ) : ⌊r⌋ ≤ rne r := by
  rw [rne_def]
  split_ifs <;> omega

theorem rne_le_ceil (r : ℚ) : rne r ≤ ⌊r⌋ + 1 := by
  rw [rne_def]
  split_ifs <;> omega

theorem rne_intCast (m : ℤ) : rne (m : ℚ) = m := by
  rw [rne_def, Int.floor_intCast, sub_self]
  norm_num

theorem rne_mono {r s : ℚ} (h : r ≤ s) : rne r ≤ rne s := by
  have hfl : ⌊r⌋ ≤ ⌊s⌋ := Int.floor_le_floor h
  rcases eq_or_lt_of_le hfl with hfe | hflt
  · have h1 : r - (⌊r⌋ : ℚ) ≤ s - (⌊r⌋ : ℚ) := by linarith
    rw [rne_def, rne_def, ← hfe]
    split_ifs <;> first | omega | linarith
  · calc rne r ≤ ⌊r⌋ + 1 := rne_le_ceil r
      _ ≤ ⌊s⌋ := by omega
      _ ≤ rne s := floor_le_rne s

theorem intCast_le_rne {m : ℤ} {r : ℚ} (h : (m : ℚ) ≤ r) : m ≤ rne r := by
  have := rne_mono h
  rwa [rne_intCast] at this

theorem rne_le_intCast {m : ℤ} {r : ℚ} (h : r ≤ (m : ℚ)) : rne r ≤ m := by
  have := rne_mono h
  rwa [rne_intCast] at this

theorem log2fuel_spec : ∀ (fuel n : ℕ), n ≤ fuel → 1 ≤ n →
    2 ^ log2fuel fuel n ≤ n ∧ n < 2 ^ (log2fuel fuel n + 1) := by
  intro fuel
  induction fuel with
  | zero => intro n h1 h2; omega
  | succ fuel ih =>
    intro n h1 h2
    by_cases hn : 2 ≤ n
    · obtain ⟨ha, hb⟩ := ih (n / 2) (by omega) (by omega)
      rw [log2fuel, if_pos hn]
      have e1 : 2 ^ (log2fuel fuel (n / 2) + 1) = 2 ^ log2fuel fuel (n / 2) * 2 :=
        pow_succ 2 _
      have e2 : 2 ^ (log2fuel fuel (n / 2) + 1 + 1) =
          2 ^ log2fuel fuel (n / 2) * 2 * 2 := by rw [pow_succ, pow_succ]
      omega
    · rw [log2fuel, if_neg hn]
      rw [pow_zero, zero_add, pow_one]
      omega

theorem natLog2_spec {n : ℕ} (h : 1 ≤ n) :
    2 ^ natLog2 n ≤ n ∧ n < 2 ^ (natLog2 n + 1) :=
  log2fuel_spec n n (le_refl n) h

theorem ilog2_def (q : ℚ) : ilog2 q =
    (if qpow2 ((natLog2 q.num.natAbs : ℤ) - (natLog2 q.den : ℤ)) ≤ q
     then (natLog2 q.num.natAbs : ℤ) - (natLog2 q.den : ℤ)
     else (natLog2 q.num.natAbs : ℤ) - (natLog2 q.den : ℤ) - 1) := rfl

theorem ilog2_bounds {q : ℚ} (hq : 0 < q) :
    qpow2 ((natLog2 q.num.natAbs : ℤ) - (natLog2 q.den : ℤ) - 1) < q ∧
    q < qpow2 ((natLog2 q.num.natAbs : ℤ) - (natLog2 q.den : ℤ) + 1) := by
  have hnum : 0 < q.num := Rat.num_pos.2 hq
  have hden : 0 < q.den := q.pos
  set a : ℕ := q.num.natAbs with ha
  set b : ℕ := q.den with hb
  have ha0 : 1 ≤ a := by
    rw [ha]
    have := Int.natAbs_ne_zero.2 (show q.num ≠ 0 from by omega)
    omega
  have hb0 : 1 ≤ b := by omega
  have hqa : ((a : ℤ)) = q.num := by
    rw [ha]
    exact Int.natAbs_of_nonneg (le_of_lt hnum)
  have hq_eq : q = (a : ℚ) / (b : ℚ) := by
    have hc : ((a : ℚ)) = ((q.num : ℤ) : ℚ) := by
      exact_mod_cast congrArg (fun z : ℤ => (z : ℚ)) hqa
    rw [hc, hb, Rat.num_div_den]
  have hb_pos : (0:ℚ) < (b : ℚ) := by exact_mod_cast hb0
  have h1 : (2:ℚ) ^ (natLog2 a) ≤ (a : ℚ) := by exact_mod_cast (natLog2_spec ha0).1
  have h2 : (a : ℚ) < 2 ^ (natLog2 a + 1) := by exact_mod_cast (natLog2_spec ha0).2
  have h3 : (2:ℚ) ^ (natLog2 b) ≤ (b : ℚ) := by exact_mod_cast (natLog2_spec hb0).1
  have h4 : (b : ℚ) < 2 ^ (natLog2 b + 1) := by exact_mod_cast (natLog2_spec hb0).2
  constructor
  · rw [hq_eq, qpow2_eq_zpow]
    have he : (2:ℚ) ^ ((natLog2 a : ℤ) - (natLog2 b : ℤ) - 1) =
        2 ^ (natLog2 a) / 2 ^ (natLog2 b + 1) := by
      rw [show ((natLog2 a : ℤ) - (natLog2 b : ℤ) - 1) =
            ((natLog2 a : ℕ) : ℤ) - ((natLog2 b + 1 : ℕ) : ℤ) from by push_cast; ring,
        zpow_sub₀ (by norm_num : (2:ℚ) ≠ 0), zpow_natCast, zpow_natCast]
    rw [he, div_lt_div_iff₀ (by positivity) hb_pos]
    calc (2:ℚ) ^ natLog2 a * (b : ℚ) < 2 ^ natLog2 a * 2 ^ (natLog2 b + 1) :=
          mul_lt_mul_of_pos_left h4 (by positivity)
      _ ≤ (a : ℚ) * 2 ^ (natLog2 b + 1) := mul_le_mul_of_nonneg_right h1 (by positivity)
  · rw [hq_eq, qpow2_eq_zpow]
    have he : (2:ℚ) ^ ((natLog2 a : ℤ) - (natLog2 b : ℤ) + 1) =
        2 ^ (natLog2 a + 1) / 2 ^ (natLog2 b) := by
      rw [show ((natLog2 a : ℤ) - (natLog2 b : ℤ) + 1) =
            ((natLog2 a + 1 : ℕ) : ℤ) - ((natLog2 b : ℕ) : ℤ) from by push_cast; ring,
        zpow_sub₀ (by norm_num : (2:ℚ) ≠ 0), zpow_natCast, zpow_natCast]
    rw [he, div_lt_div_iff₀ hb_pos (by positivity)]
    calc (a : ℚ) * 2 ^ natLog2 b < 2 ^ (natLog2 a + 1) * 2 ^ natLog2 b :=
          mul_lt_mul_of_pos_right h2 (by positivity)
      _ ≤ 2 ^ (natLog2 a + 1) * (b : ℚ) := mul_le_mul_of_nonneg_left h3 (by positivity)

theorem ilog2_spec {q : ℚ} (hq : 0 < q) :
    qpow2 (ilog2 q) ≤ q ∧ q < qpow2 (ilog2 q + 1) := by
  obtain ⟨hlow, hhigh⟩ := ilog2_bounds hq
  rw [ilog2_def]
  split_ifs with h
  · exact ⟨h, hhigh⟩
  · refine ⟨le_of_lt hlow, ?_⟩
    rw [show (natLog2 q.num.natAbs : ℤ) - (natLog2 q.den : ℤ) - 1 + 1 =
          (natLog2 q.num.natAbs : ℤ) - (natLog2 q.den : ℤ) from by ring]
    exact lt_of_not_le h

theorem ilog2_unique {q : ℚ} (hq : 0 < q) {e : ℤ}
    (h1 : qpow2 e ≤ q) (h2 : q < qpow2 (e + 1)) : ilog2 q = e := by
  obtain ⟨l1, l2⟩ := ilog2_spec hq
  by_contra hne
  rcases lt_or_gt_of_ne hne with hlt | hgt
  · exact absurd h1 (not_le.2 (lt_of_lt_of_le l2 (qpow2_mono (by omega))))
  · exact absurd l1 (not_le.2 (lt_of_lt_of_le h2 (qpow2_mono (by omega))))

theorem ilog2_mono {p q : ℚ} (hp : 0 < p) (h : p ≤ q) : ilog2 p ≤ ilog2 q := by
  have hq : 0 < q := lt_of_lt_of_le hp h
  by_contra hc
  push_neg at hc
  have h1 := (ilog2_spec hp).1
  have h2 := (ilog2_spec hq).2
  have : q < p := lt_of_lt_of_le h2 (le_trans (qpow2_mono (by omega)) h1)
  linarith

/-- The scaled mantissa of a positive rational lies in `[2^52, 2^53]`. -/
theorem roundB64pos_repr {q : ℚ} (hq : 0 < q) :
    2 ^ 52 ≤ rne (q * qpow2 (52 - ilog2 q)) ∧
    rne (q * qpow2 (52 - ilog2 q)) ≤ 2 ^ 53 := by
  obtain ⟨l1, l2⟩ := ilog2_spec hq
  have hp := qpow2_pos (52 - ilog2 q)
  constructor
  · apply intCast_le_rne
    have step := mul_le_mul_of_nonneg_right l1 (le_of_lt hp)
    rw [← qpow2_add, show ilog2 q + (52 - ilog2 q) = 52 from by ring] at step
    calc ((2 ^ 52 : ℤ) : ℚ) = qpow2 52 := qpow2_52.symm
      _ ≤ _ := step
  · apply rne_le_intCast
    have step := mul_le_mul_of_nonneg_right (le_of_lt l2) (le_of_lt hp)
    rw [← qpow2_add, show ilog2 q + 1 + (52 - ilog2 q) = 53 from by ring] at step
    calc q * qpow2 (52 - ilog2 q) ≤ qpow2 53 := step
      _ = ((2 ^ 53 : ℤ) : ℚ) := qpow2_53

theorem roundB64pos_lb {q : ℚ} (hq : 0 < q) : qpow2 (ilog2 q) ≤ roundB64pos q := by
  obtain ⟨hm1, _⟩ := roundB64pos_repr hq
  unfold roundB64pos
  have step : ((2 ^ 52 : ℤ) : ℚ) * qpow2 (ilog2 q - 52) ≤
      (rne (q * qpow2 (52 - ilog2 q)) : ℚ) * qpow2 (ilog2 q - 52) := by
    apply mul_le_mul_of_nonneg_right _ (le_of_lt (qpow2_pos _))
    exact_mod_cast hm1
  refine le_trans (le_of_eq ?_) step
  rw [← qpow2_52, ← qpow2_add]
  rw [show (52 : ℤ) + (ilog2 q - 52) = ilog2 q from by ring]

theorem roundB64pos_ub {q : ℚ} (hq : 0 < q) : roundB64pos q ≤ qpow2 (ilog2 q + 1) := by
  obtain ⟨_, hm2⟩ := roundB64pos_repr hq
  unfold roundB64pos
  have step : (rne (q * qpow2 (52 - ilog2 q)) : ℚ) * qpow2 (ilog2 q - 52) ≤
      ((2 ^ 53 : ℤ) : ℚ) * qpow2 (ilog2 q - 52) := by
    apply mul_le_mul_of_nonneg_right _ (le_of_lt (qpow2_pos _))
    exact_mod_cast hm2
  refine le_trans step (le_of_eq ?_)
  rw [← qpow2_53, ← qpow2_add]
  rw [show (53 : ℤ) + (ilog2 q - 52) = ilog2 q + 1 from by ring]

theorem roundB64pos_pos {q : ℚ} (hq : 0 < q) : 0 < roundB64pos q :=
  lt_of_lt_of_le (qpow2_pos _) (roundB64pos_lb hq)

theorem roundB64pos_mono {p q : ℚ} (hp : 0 < p) (h : p ≤ q) :
    roundB64pos p ≤ roundB64pos q := by
  have hq : 0 < q := lt_of_lt_of_le hp h
  rcases eq_or_lt_of_le (ilog2_mono hp h) with he | he
  · unfold roundB64pos
    rw [← he]
    apply mul_le_mul_of_nonneg_right _ (le_of_lt (qpow2_pos _))
    have step : rne (p * qpow2 (52 - ilog2 p)) ≤ rne (q * qpow2 (52 - ilog2 p)) :=
      rne_mono (mul_le_mul_of_nonneg_right h (le_of_lt (qpow2_pos _)))
    exact_mod_cast step
  · calc roundB64pos p ≤ qpow2 (ilog2 p + 1) := roundB64pos_ub hp
      _ ≤ qpow2 (ilog2 q) := qpow2_mono (by omega)
      _ ≤ roundB64pos q := roundB64pos_lb hq

theorem ilog2_qpow2 (k : ℤ) : ilog2 (qpow2 k) = k := by
  apply ilog2_unique (qpow2_pos k) (le_refl _)
  rw [qpow2_succ]
  have := qpow2_pos k
  linarith

theorem roundB64pos_qpow2 (k : ℤ) : roundB64pos (qpow2 k) = qpow2 k := by
  unfold roundB64pos
  rw [ilog2_qpow2, ← qpow2_add, show k + (52 - k) = 52 from by ring, qpow2_52,
    rne_intCast, ← qpow2_52, ← qpow2_add,
    show (52 : ℤ) + (k - 52) = k from by ring]

/-- A dyadic rational with a 53-bit mantissa is a fixed point of the
rounding. -/
theorem roundB64pos_dyadic {m e : ℤ} (h1 : 2 ^ 52 ≤ m) (h2 : m < 2 ^ 53) :
    roundB64pos ((m : ℚ) * qpow2 (e - 52)) = (m : ℚ) * qpow2 (e - 52) := by
  have hm0 : (0:ℚ) < (m : ℚ) := by exact_mod_cast lt_of_lt_of_le (by positivity) h1
  have hpos : (0:ℚ) < (m : ℚ) * qpow2 (e - 52) := mul_pos hm0 (qpow2_pos _)
  have hilog : ilog2 ((m : ℚ) * qpow2 (e - 52)) = e := by
    apply ilog2_unique hpos
    · have he : qpow2 e = qpow2 52 * qpow2 (e - 52) := by
        rw [← qpow2_add, show (52 : ℤ) + (e - 52) = e from by ring]
      rw [he]
      apply mul_le_mul_of_nonneg_right _ (le_of_lt (qpow2_pos _))
      rw [qpow2_52]
      exact_mod_cast h1
    · have he : qpow2 (e + 1) = qpow2 53 * qpow2 (e - 52) := by
        rw [← qpow2_add, show (53 : ℤ) + (e - 52) = e + 1 from by ring]
      rw [he]
      apply mul_lt_mul_of_pos_right _ (qpow2_pos _)
      rw [qpow2_53]
      exact_mod_cast h2
  unfold roundB64pos
  rw [hilog, mul_assoc, ← qpow2_add, show e - 52 + (52 - e) = 0 from by ring,
    qpow2_zero, mul_one, rne_intCast]

theorem roundB64pos_idem {q : ℚ} (hq : 0 < q) :
    roundB64pos (roundB64pos q) = roundB64pos q := by
  obtain ⟨h1, h2⟩ := roundB64pos_repr hq
  rcases lt_or_eq_of_le h2 with h2' | h2'
  · exact roundB64pos_dyadic h1 h2'
  · have hval : roundB64pos q = qpow2 (ilog2 q + 1) := by
      unfold roundB64pos
      rw [h2', ← qpow2_53, ← qpow2_add,
        show (53 : ℤ) + (ilog2 q - 52) = ilog2 q + 1 from by ring]
    rw [hval, roundB64pos_qpow2]

theorem roundB64_zero : roundB64 0 = 0 := by norm_num [roundB64]

theorem roundB64_pos_eq {q : ℚ} (hq : 0 < q) : roundB64 q = roundB64pos q := by
  unfold roundB64
  rw [if_pos hq]

theorem roundB64_nonneg {q : ℚ} (h : 0 ≤ q) : 0 ≤ roundB64 q := by
  rcases eq_or_lt_of_le h with h0 | h0
  · rw [← h0, roundB64_zero]
  · rw [roundB64_pos_eq h0]
    exact le_of_lt (roundB64pos_pos h0)

theorem roundB64_mono {p q : ℚ} (hp : 0 ≤ p) (h : p ≤ q) :
    roundB64 p ≤ roundB64 q := by
  rcases eq_or_lt_of_le hp with h0 | h0
  · rw [← h0, roundB64_zero]
    exact roundB64_nonneg (by linarith)
  · rw [roundB64_pos_eq h0, roundB64_pos_eq (lt_of_lt_of_le h0 h)]
    exact roundB64pos_mono h0 h

theorem roundB64_idem (q : ℚ) : roundB64 (roundB64 q) = roundB64 q := by
  rcases lt_trichotomy q 0 with h | h | h
  · have hv : roundB64 q = -roundB64pos (-q) := by
      unfold roundB64
      rw [if_neg (by linarith), if_pos h]
    have hP : 0 < roundB64pos (-q) := roundB64pos_pos (by linarith)
    rw [hv]
    unfold roundB64
    rw [if_neg (by linarith), if_pos (by linarith), neg_neg,
      roundB64pos_idem (show (0:ℚ) < -q from by linarith)]
  · rw [h, roundB64_zero, roundB64_zero]
  · rw [roundB64_pos_eq h, roundB64_pos_eq (roundB64pos_pos h), roundB64pos_idem h]

/-- `0.5` is exactly representable. -/
theorem roundB64_half : (1:ℚ)/2 = roundB64 (1/2) := by decide

/-- Rounding the binary64 average to 2 decimals cannot move a value from
`≥ 1/2` below `1/2` (50 is an exact multiple of the decimal step). -/
theorem pyRound2_ge_half {s : ℚ} (h : 1/2 ≤ s) : 1/2 ≤ pyRound2 s := by
  unfold pyRound2
  have h50 : (50 : ℤ) ≤ rne (s * 100) := by
    apply intCast_le_rne
    push_cast
    linarith
  have hdiv : (1:ℚ)/2 ≤ (rne (s * 100) : ℚ) / 100 := by
    have hc : ((50 : ℤ) : ℚ) ≤ (rne (s * 100) : ℚ) := by exact_mod_cast h50
    push_cast at hc
    linarith
  calc (1:ℚ)/2 = roundB64 (1/2) := roundB64_half
    _ ≤ roundB64 ((rne (s * 100) : ℚ) / 100) := roundB64_mono (by norm_num) hdiv

theorem d1e9_le_d06 : d1e9 ≤ d06 := by decide

/-! ## Bridge lemmas for the float-exact analyzers -/

theorem foldl_fadd_ge : ∀ (l : List ℚ) (s : ℚ), roundB64 s = s → 0 ≤ s →
    (∀ x ∈ l, 0 ≤ x) → s ≤ List.foldl fadd s l := by
  intro l
  induction l with
  | nil => intro s _ _ _; exact le_refl s
  | cons r rest ih =>
    intro s hs hs0 hl
    have hr0 : 0 ≤ r := hl r (List.mem_cons_self r rest)
    have h1 : s ≤ fadd s r := by
      calc s = roundB64 s := hs.symm
        _ ≤ roundB64 (s + r) := roundB64_mono hs0 (by linarith)
    have h2 : fadd s r ≤ List.foldl fadd (fadd s r) rest :=
      ih (fadd s r) (roundB64_idem _) (by linarith)
        (fun x hx => hl x (List.mem_cons_of_mem _ hx))
    calc s ≤ fadd s r := h1
      _ ≤ List.foldl fadd (fadd s r) rest := h2
      _ = List.foldl fadd s (r :: rest) := (List.foldl_cons _ _).symm

theorem fsum_ge_head {w : ℚ} {rest : List ℚ} (hw : roundB64 w = w) (hw0 : 0 ≤ w)
    (hrest : ∀ x ∈ rest, 0 ≤ x) : w ≤ fsum (w :: rest) := by
  unfold fsum
  rw [List.foldl_cons]
  have h0 : fadd 0 w = w := by
    unfold fadd
    rw [zero_add]
    exact hw
  rw [h0]
  exact foldl_fadd_ge rest w hw hw0 hrest

/-- Every float recency weight is a represented double, at least `0.6`,
and nonnegative. -/
theorem fweight_term_props (den : ℚ) (j : ℕ) (hden : 0 ≤ den) :
    d06 ≤ fadd d06 (fdiv (fmul d04 (roundB64 ((j : ℚ) + 1))) den) ∧
    0 ≤ fadd d06 (fdiv (fmul d04 (roundB64 ((j : ℚ) + 1))) den) := by
  have hx0 : 0 ≤ fdiv (fmul d04 (roundB64 ((j : ℚ) + 1))) den := by
    unfold fdiv
    apply roundB64_nonneg
    apply div_nonneg _ hden
    unfold fmul
    apply roundB64_nonneg
    apply mul_nonneg
    · exact roundB64_nonneg (by norm_num)
    · exact roundB64_nonneg (by positivity)
  have hd060 : (0:ℚ) ≤ d06 := roundB64_nonneg (by norm_num)
  have hge : d06 ≤ fadd d06 (fdiv (fmul d04 (roundB64 ((j : ℚ) + 1))) den) := by
    unfold fadd
    calc d06 = roundB64 d06 := (roundB64_idem _).symm
      _ ≤ roundB64 (d06 + fdiv (fmul d04 (roundB64 ((j : ℚ) + 1))) den) :=
        roundB64_mono hd060 (by linarith)
  exact ⟨hge, le_trans hd060 hge⟩

/-- The float sum of the weights is at least the first weight, hence at
least `0.6`: the `max(total_w, 1e-9)` guard never binds. -/
theorem fspecWeights_sum_ge {n : ℕ} (hn : n ≠ 0) : d06 ≤ fsum (fspecWeights n) := by
  obtain ⟨m, rfl⟩ : ∃ m, n = m + 1 := ⟨n - 1, by omega⟩
  unfold fspecWeights
  rw [List.range_succ_eq_map, List.map_cons]
  have hden : (0:ℚ) ≤ roundB64 (((m + 1 : ℕ)) : ℚ) := roundB64_nonneg (by positivity)
  have hhead := fweight_term_props (roundB64 (((m + 1 : ℕ)) : ℚ)) 0 hden
  refine le_trans hhead.1 (fsum_ge_head (roundB64_idem _) hhead.2 ?_)
  intro x hx
  obtain ⟨j, hj, rfl⟩ := List.mem_map.1 hx
  exact (fweight_term_props _ _ hden).2

theorem fconvoWeights_eq_fspec {n : ℕ} (hn : n ≠ 0) :
    fconvoWeights n = fspecWeights n := by
  unfold fconvoWeights fspecWeights
  rw [Nat.max_eq_right (Nat.one_le_iff_ne_zero.2 hn)]

theorem fanalyze_message_is_upset (text : List Char) :
    (fanalyze_message text).is_upset = decide ((1:ℚ)/2 ≤ fhostility_score text) := by
  simp only [fanalyze_message]

theorem fanalyze_message_confidence (text : List Char) :
    (fanalyze_message text).confidence = pyRound2 (fhostility_score text) := by
  simp only [fanalyze_message]

theorem fconvoAllSignals_eq (filtered : List ConversationEntry) :
    fconvoAllSignals filtered =
      (filtered.map (fun m => (fanalyze_message m.text).signals)).flatten := by
  unfold fconvoAllSignals
  rw [List.map_map]
  rfl

theorem fconvoAvg_eq_fspecAvg {filtered : List ConversationEntry}
    (h : filtered ≠ []) : fconvoAvg filtered = fspecAvg filtered := by
  have hn : filtered.length ≠ 0 := by
    simpa [List.length_eq_zero] using h
  simp only [fconvoAvg, fspecAvg]
  rw [fconvoWeights_eq_fspec hn, List.map_map,
    if_pos (le_trans d1e9_le_d06 (fspecWeights_sum_ge hn))]
  rfl

/-- As in the exact model, the recommender reads the signals only through
the hurt-tag search, which deduplication cannot change. -/
theorem fsuggest_action_dedup (t : List Char) (sigs : List (List Char)) (c : ℚ) :
    fsuggest_action t (dedupFirst [] sigs) c = fsuggest_action t sigs c := by
  simp only [fsuggest_action, hurtTag_join, dedupFirst_any]

theorem fconvo_action_eq {filtered : List ConversationEntry}
    (h : ¬(filtered = [])) :
    (fconvoResult filtered).suggested_action =
      fsuggest_action (filtered.getLast h).text
        ((filtered.map (fun m => (fanalyze_message m.text).signals)).flatten)
        (fconvoAvg filtered) := by
  unfold fconvoResult
  rw [dif_neg h, fconvoAllSignals_eq]

/-! ## C1 in binary64 -/

set_option maxRecDepth 1000000 in
/-- C1 counterexample: for the message "no..." the binary64 score is
`0.49999999999999994`, just below `1/2`, so the program reports
`is_upset = false`; but `round(s, 2)` rounds it up to exactly `0.5`, so the
reported confidence satisfies `confidence ≥ 0.5` and the claimed
equivalence `is_upset = (confidence ≥ 0.5)` fails. -/
theorem rounded_half_counterexample :
    (fanalyze_message (chars "no...")).is_upset = false ∧
    (1:ℚ)/2 ≤ (fanalyze_message (chars "no...")).confidence ∧
    (fanalyze_message (chars "no...")).is_upset ≠
      decide ((1:ℚ)/2 ≤ (fanalyze_message (chars "no...")).confidence) := by
  refine ⟨by decide, by decide, by decide⟩

/-- C1 (amended): `is_upset` is the comparison of the raw binary64 score
with `0.5`, before rounding; the direction `is_upset → confidence ≥ 0.5`
does hold (2-decimal rounding is monotone and fixes `0.5`), but the
converse can fail, because a score just below `1/2` may round up to `0.50`
(`rounded_half_counterexample`). -/
theorem float_verdict_raw_threshold (text : List Char) :
    (fanalyze_message text).is_upset =
      decide ((1:ℚ)/2 ≤ fhostility_score text) ∧
    ((fanalyze_message text).is_upset = true →
      (1:ℚ)/2 ≤ (fanalyze_message text).confidence) := by
  refine ⟨fanalyze_message_is_upset text, fun hup => ?_⟩
  rw [fanalyze_message_confidence]
  apply pyRound2_ge_half
  rw [fanalyze_message_is_upset text] at hup
  exact of_decide_eq_true hup

set_option maxRecDepth 1000000 in
theorem float_verdict_raw_threshold_witness :
    (fanalyze_message (chars "whatever.")).is_upset = true ∧
    (1:ℚ)/2 ≤ (fanalyze_message (chars "whatever.")).confidence :=
  ⟨by decide, (float_verdict_raw_threshold (chars "whatever.")).2 (by decide)⟩

/-! ## C3 in binary64 -/

set_option maxRecDepth 1000000 in
/-- C3 counterexample: a conversation whose weighted average of the
per-message confidences is exactly `1/8 = 0.125`, an exact tie at 2
decimals.  The ideal value-level reading rounds half up to `0.13`; the
program's binary64 average is exactly `1/8` too, and Python's
round-half-to-even gives `0.12` (returned as the double nearest `0.12`),
so the returned confidence is not `round2` of the ideal average. -/
theorem conversation_rounding_counterexample :
    (fanalyze_conversation [⟨chars "maybe", chars "a"⟩, ⟨chars "maybe", chars "a"⟩,
      ⟨chars "hello", chars "a"⟩, ⟨chars "maybe not!! or...", chars "a"⟩]
      none).confidence = roundB64 (12/100) ∧
    round2 (specAvg (filteredMessages [⟨chars "maybe", chars "a"⟩,
      ⟨chars "maybe", chars "a"⟩, ⟨chars "hello", chars "a"⟩,
      ⟨chars "maybe not!! or...", chars "a"⟩] none)) = 13/100 ∧
    (fanalyze_conversation [⟨chars "maybe", chars "a"⟩, ⟨chars "maybe", chars "a"⟩,
      ⟨chars "hello", chars "a"⟩, ⟨chars "maybe not!! or...", chars "a"⟩]
      none).confidence ≠
      round2 (specAvg (filteredMessages [⟨chars "maybe", chars "a"⟩,
        ⟨chars "maybe", chars "a"⟩, ⟨chars "hello", chars "a"⟩,
        ⟨chars "maybe not!! or...", chars "a"⟩] none)) := by
  refine ⟨by decide, by decide, by decide⟩

/-- C3 (amended): for a non-empty filtered conversation the returned
confidence is Python's 2-decimal rounding (`pyRound2`: ties to even on the
double's exact value) of the binary64 evaluation of
`sum(c_i * w_i) / sum(w_i)` with `w_i = 0.6 + 0.4 * (i+1)/n`; the code's
`max(1, n)` and `max(total_w, 1e-9)` guards never bind. -/
theorem float_confidence_weighted_average (msgs : List ConversationEntry)
    (fa : Option (List Char)) (h : filteredMessages msgs fa ≠ []) :
    (fanalyze_conversation msgs fa).confidence =
      pyRound2 (fspecAvg (filteredMessages msgs fa)) := by
  unfold fanalyze_conversation fconvoResult
  rw [dif_neg h, fconvoAvg_eq_fspecAvg h]

theorem float_confidence_weighted_average_witness :
    filteredMessages [⟨chars "ok.", chars "a"⟩, ⟨chars "great.", chars "b"⟩,
      ⟨chars "you never listen!!", chars "a"⟩] (some (chars "a")) ≠ [] ∧
    (fanalyze_conversation [⟨chars "ok.", chars "a"⟩, ⟨chars "great.", chars "b"⟩,
      ⟨chars "you never listen!!", chars "a"⟩] (some (chars "a"))).confidence =
      pyRound2 (fspecAvg (filteredMessages [⟨chars "ok.", chars "a"⟩,
        ⟨chars "great.", chars "b"⟩, ⟨chars "you never listen!!", chars "a"⟩]
        (some (chars "a")))) :=
  ⟨by decide, float_confidence_weighted_average _ _ (by decide)⟩

/-! ## C10 in binary64 -/

set_option maxRecDepth 1000000 in
/-- C10 counterexample: a conversation whose exact weighted average is
`0.55` but whose binary64 average is `0.5499999999999999`, strictly below
the double `0.55` the program compares against.  The program therefore
answers with the clarify-gently action, while the claimed composition over
the ideal average (`med` holds at exactly `0.55`) yields
acknowledge-and-invite. -/
theorem float_threshold_counterexample :
    (fanalyze_conversation [⟨chars "maybe not", chars "a"⟩,
      ⟨chars "could not!!" ++ Char.ofNat 0x1F620 :: chars "fine.", chars "a"⟩]
      none).suggested_action = clarifyGently ∧
    suggest_action ((filteredMessages [⟨chars "maybe not", chars "a"⟩,
        ⟨chars "could not!!" ++ Char.ofNat 0x1F620 :: chars "fine.", chars "a"⟩]
        none).getLast (by decide)).text
      (dedupFirst [] (((filteredMessages [⟨chars "maybe not", chars "a"⟩,
        ⟨chars "could not!!" ++ Char.ofNat 0x1F620 :: chars "fine.", chars "a"⟩]
        none).map (fun m => (analyze_message m.text).signals)).flatten))
      (specAvg (filteredMessages [⟨chars "maybe not", chars "a"⟩,
        ⟨chars "could not!!" ++ Char.ofNat 0x1F620 :: chars "fine.", chars "a"⟩]
        none)) = acknowledgeAndInvite ∧
    clarifyGently ≠ acknowledgeAndInvite := by
  refine ⟨by decide, by decide, by decide⟩

/-- C10 (amended): for a non-empty filtered conversation the suggested
action is the recommender's output in binary64 semantics — its thresholds
are the doubles denoted by `0.55` and `0.7` — on the last filtered
message's raw text, the deduplicated conversation-level signals, and the
unrounded binary64 aggregate confidence.  (The source passes the signals
before deduplication; by `fsuggest_action_dedup` this cannot change the
output.) -/
theorem float_action_from_last (msgs : List ConversationEntry)
    (fa : Option (List Char)) (h : filteredMessages msgs fa ≠ []) :
    (fanalyze_conversation msgs fa).suggested_action =
      fsuggest_action ((filteredMessages msgs fa).getLast h).text
        (dedupFirst [] (((filteredMessages msgs fa).map
          (fun m => (fanalyze_message m.text).signals)).flatten))
        (fspecAvg (filteredMessages msgs fa)) := by
  unfold fanalyze_conversation
  rw [fconvo_action_eq h, fconvoAvg_eq_fspecAvg h, fsuggest_action_dedup]

theorem float_action_from_last_witness :
    filteredMessages [⟨chars "you never listen", chars "a"⟩,
      ⟨chars "whatever.", chars "a"⟩] none ≠ [] ∧
    (fanalyze_conversation [⟨chars "you never listen", chars "a"⟩,
      ⟨chars "whatever.", chars "a"⟩] none).suggested_action =
      fsuggest_action ((filteredMessages [⟨chars "you never listen", chars "a"⟩,
        ⟨chars "whatever.", chars "a"⟩] none).getLast (by decide)).text
        (dedupFirst [] (((filteredMessages
          [⟨chars "you never listen", chars "a"⟩,
           ⟨chars "whatever.", chars "a"⟩] none).map
          (fun m => (fanalyze_message m.text).signals)).flatten))
        (fspecAvg (filteredMessages [⟨chars "you never listen", chars "a"⟩,
          ⟨chars "whatever.", chars "a"⟩] none)) :=
  ⟨by decide,
   float_action_from_last [⟨chars "you never listen", chars "a"⟩,
     ⟨chars "whatever.", chars "a"⟩] none (by decide)⟩

end

end UpsetAi
